import Mathlib

/-!
Verification development for the transaction-text parser
(`scripts/parse_transaction_text.py`).

The Python module parses transaction records serialized as bracketed
object dumps (`Transaction[id=..., status=TransactionStatus [value=...], ...]`)
into a JSON-like value tree, prunes nulls, normalizes status strings and
amounts, and splits multi-record blobs.

Strings are embedded as `List Char`.  Python values (the results of
`parse_value_recursive`) are embedded as the inductive type `PyVal`;
Python dicts become insertion-ordered association lists.  Python floats
are modelled as rationals (`ℚ`), so the arithmetic of the amount
heuristic is exact.  All recursive functions are total Lean functions;
the Python code never raises inside these functions, and totality of the
embedding mirrors that.

Each recursive function of the source is embedded twice:
  * the primary definition, by well-founded recursion, mirroring the
    Python control flow directly; and
  * a fuel-indexed twin (suffix `F`), structurally recursive on the fuel
    and returning `Option`, used only to let the kernel evaluate the
    functions on concrete inputs.  Bridge theorems prove that whenever a
    twin returns `some r`, the primary definition returns `r`.
-/

/-- Whitespace characters recognized by Python `str.strip()` (ASCII range;
the same set as the regex class `\s`). -/
def pyIsSpace (c : Char) : Bool :=
  c = ' ' ∨ c = '\t' ∨ c = '\n' ∨ c = '\r' ∨ c = Char.ofNat 11 ∨ c = Char.ofNat 12

/-- Word characters of the regex class `\w` (ASCII range). -/
def isWordChar (c : Char) : Bool :=
  ('a' ≤ c ∧ c ≤ 'z') ∨ ('A' ≤ c ∧ c ≤ 'Z') ∨ ('0' ≤ c ∧ c ≤ '9') ∨ c = '_'

/-- Python `str.strip()`: remove leading and trailing whitespace. -/
def stripL (l : List Char) : List Char :=
  ((l.dropWhile pyIsSpace).reverse.dropWhile pyIsSpace).reverse

/-- ASCII lower-casing of one character, as done by Python `str.lower()`
on ASCII input. -/
def lowerChar (c : Char) : Char :=
  if 'A' ≤ c ∧ c ≤ 'Z' then Char.ofNat (c.toNat + 32) else c

/-- Python `str.lower()` (ASCII range). -/
def lowerL (l : List Char) : List Char := l.map lowerChar

/-- Python substring test `needle in hay`. -/
def containsSub (hay needle : List Char) : Bool :=
  hay.tails.any (fun t => needle.isPrefixOf t)

/-- Opening curly brace character. -/
def lbrace : Char := Char.ofNat 123

/-- Closing curly brace character. -/
def rbrace : Char := Char.ofNat 125

/-- Bracket-depth delta of one character: `[`/`{` opens, `]`/`}` closes. -/
def bracketDelta (c : Char) : ℤ :=
  if c = '[' ∨ c = lbrace then 1 else if c = ']' ∨ c = rbrace then -1 else 0

/-- Tail of a Python integer-literal digit run: digits with single
underscores allowed between digits (`d(_d+|d)*` after the first digit). -/
def digitsTail : List Char → Bool
  | [] => true
  | '_' :: rest =>
    match rest with
    | c :: rest2 => c.isDigit && digitsTail rest2
    | [] => false
  | c :: rest => c.isDigit && digitsTail rest

/-- Digit run accepted by Python `int()` after the sign: nonempty digits
with single underscores strictly between digits. -/
def pyDigitsOk : List Char → Bool
  | [] => false
  | c :: rest => c.isDigit && digitsTail rest

/-- Numeric value of a digit run, ignoring underscores. -/
def digitsVal (l : List Char) : ℕ :=
  l.foldl (fun acc c => if c.isDigit then 10 * acc + (c.toNat - 48) else acc) 0

/-- Python `int(s)` on a stripped string, without sign. -/
def pyNat? (l : List Char) : Option ℕ :=
  if pyDigitsOk l then some (digitsVal l) else Option.none

/-- Python `int(s)` on a stripped string: optional sign, then digits
(ASCII; unicode digits are not modelled). `none` models `ValueError`. -/
def pyInt? (l : List Char) : Option ℤ :=
  match l with
  | '+' :: rest => (pyNat? rest).map (fun n => (n : ℤ))
  | '-' :: rest => (pyNat? rest).map (fun n => -(n : ℤ))
  | _ => (pyNat? l).map (fun n => (n : ℤ))

/-- Number of actual digits in a digit run (underscores not counted). -/
def digitCount (l : List Char) : ℕ := (l.filter Char.isDigit).length

/-- Exponent part of a Python float literal: optional sign then digits. -/
def pyExp? : List Char → Option ℤ
  | [] => Option.none
  | '+' :: rest => (pyNat? rest).map (fun n => (n : ℤ))
  | '-' :: rest => (pyNat? rest).map (fun n => -(n : ℤ))
  | l => (pyNat? l).map (fun n => (n : ℤ))

/-- Mantissa of a Python float literal: `digits`, `digits.`, `.digits`
or `digits.digits` (with underscore rules), as an exact rational. -/
def pyMant? (mant : List Char) : Option ℚ :=
  let ip := mant.takeWhile (fun c => ¬(c = '.'))
  match mant.drop ip.length with
  | [] => (pyNat? ip).map (fun n => (n : ℚ))
  | '.' :: fp =>
    if ('.' ∈ fp) then Option.none
    else if (ip = [] ∨ pyDigitsOk ip) ∧ (fp = [] ∨ pyDigitsOk fp) ∧ ¬(ip = [] ∧ fp = []) then
      some ((digitsVal ip : ℚ) + (digitsVal fp : ℚ) / (10 : ℚ) ^ (digitCount fp))
    else Option.none
  | _ => Option.none

/-- Python `float(s)` on a stripped string (finite decimal literals with
optional exponent; `inf`/`nan` are not modelled — the parser only calls
`float` on strings containing a dot).  The result is the exact rational
value; `none` models `ValueError`. -/
def pyFloat? (l : List Char) : Option ℚ :=
  let signed : ℚ × List Char :=
    match l with
    | '+' :: r => (1, r)
    | '-' :: r => (-1, r)
    | _ => (1, l)
  let mant := signed.2.takeWhile (fun c => ¬(c = 'e' ∨ c = 'E'))
  let expPart := signed.2.drop mant.length
  let expVal : Option ℤ :=
    match expPart with
    | [] => some 0
    | _ :: er => pyExp? er
  match pyMant? mant, expVal with
  | some m, some e => some (signed.1 * m * (10 : ℚ) ^ e)
  | _, _ => Option.none

/-- Matcher for the regex `^(\w+)\s*\[value=([^\]]+)\]$` of
`parse_value_recursive` (line 64): a word prefix, optional whitespace,
then `[value=INNER]` where `INNER` is nonempty and `]`-free.  Returns
the capture `INNER`. -/
def matchValueWrapper (v : List Char) : Option (List Char) :=
  if v.takeWhile isWordChar = [] then Option.none
  else
    let rest := (v.dropWhile isWordChar).dropWhile pyIsSpace
    if "[value=".data.isPrefixOf rest then
      let t := rest.drop 7
      let inner := t.takeWhile (fun c => ¬(c = ']'))
      if ¬(inner = []) ∧ t = inner ++ [']'] then some inner else Option.none
    else Option.none

/-- Matcher for the regexes `^Optional\[(.+)\]$` / `^JsonNullable\[(.+)\]$`
(DOTALL, greedy), and for `^\s*Transaction\[(.+)\]\s*$` applied to an
already-stripped string: a fixed prefix `pre` (including the opening
bracket), a nonempty inner capture, and a final `]`.  The greedy `(.+)`
makes the capture span to the last character, which must be `]`. -/
def matchWrap (pre v : List Char) : Option (List Char) :=
  if pre.isPrefixOf v then
    let t := v.drop pre.length
    if 2 ≤ t.length ∧ t.getLast? = some ']' then some t.dropLast else Option.none
  else Option.none

/-- Matcher for the regex `^(\w+)\[(.+)\]$` (DOTALL) of the generic
tagged-object rule (line 85): maximal word prefix, immediately `[`,
nonempty inner capture spanning to the final `]`. -/
def matchNested (v : List Char) : Option (List Char × List Char) :=
  let w := v.takeWhile isWordChar
  if w = [] then Option.none
  else
    match v.dropWhile isWordChar with
    | '[' :: t =>
      if 2 ≤ t.length ∧ t.getLast? = some ']' then some (w, t.dropLast) else Option.none
    | _ => Option.none

/-- Embedded Python values produced by the parser: `None`, booleans,
ints, floats (as exact rationals), strings, lists, and insertion-ordered
dicts with string keys. -/
inductive PyVal where
  | none : PyVal
  | bool : Bool → PyVal
  | int : ℤ → PyVal
  | float : ℚ → PyVal
  | str : String → PyVal
  | list : List PyVal → PyVal
  | dict : List (String × PyVal) → PyVal

mutual

def pyValDecEq : (a b : PyVal) → Decidable (a = b)
  | PyVal.none, PyVal.none => isTrue rfl
  | PyVal.bool a, PyVal.bool b =>
    match decEq a b with
    | isTrue h => isTrue (by rw [h])
    | isFalse h => isFalse (by intro he; cases he; exact h rfl)
  | PyVal.int a, PyVal.int b =>
    match decEq a b with
    | isTrue h => isTrue (by rw [h])
    | isFalse h => isFalse (by intro he; cases he; exact h rfl)
  | PyVal.float a, PyVal.float b =>
    match decEq a b with
    | isTrue h => isTrue (by rw [h])
    | isFalse h => isFalse (by intro he; cases he; exact h rfl)
  | PyVal.str a, PyVal.str b =>
    match decEq a b with
    | isTrue h => isTrue (by rw [h])
    | isFalse h => isFalse (by intro he; cases he; exact h rfl)
  | PyVal.list a, PyVal.list b =>
    match pyListDecEq a b with
    | isTrue h => isTrue (by rw [h])
    | isFalse h => isFalse (by intro he; cases he; exact h rfl)
  | PyVal.dict a, PyVal.dict b =>
    match pyDictDecEq a b with
    | isTrue h => isTrue (by rw [h])
    | isFalse h => isFalse (by intro he; cases he; exact h rfl)
  | PyVal.none, PyVal.bool _ => isFalse (by intro h; cases h)
  | PyVal.none, PyVal.int _ => isFalse (by intro h; cases h)
  | PyVal.none, PyVal.float _ => isFalse (by intro h; cases h)
  | PyVal.none, PyVal.str _ => isFalse (by intro h; cases h)
  | PyVal.none, PyVal.list _ => isFalse (by intro h; cases h)
  | PyVal.none, PyVal.dict _ => isFalse (by intro h; cases h)
  | PyVal.bool _, PyVal.none => isFalse (by intro h; cases h)
  | PyVal.bool _, PyVal.int _ => isFalse (by intro h; cases h)
  | PyVal.bool _, PyVal.float _ => isFalse (by intro h; cases h)
  | PyVal.bool _, PyVal.str _ => isFalse (by intro h; cases h)
  | PyVal.bool _, PyVal.list _ => isFalse (by intro h; cases h)
  | PyVal.bool _, PyVal.dict _ => isFalse (by intro h; cases h)
  | PyVal.int _, PyVal.none => isFalse (by intro h; cases h)
  | PyVal.int _, PyVal.bool _ => isFalse (by intro h; cases h)
  | PyVal.int _, PyVal.float _ => isFalse (by intro h; cases h)
  | PyVal.int _, PyVal.str _ => isFalse (by intro h; cases h)
  | PyVal.int _, PyVal.list _ => isFalse (by intro h; cases h)
  | PyVal.int _, PyVal.dict _ => isFalse (by intro h; cases h)
  | PyVal.float _, PyVal.none => isFalse (by intro h; cases h)
  | PyVal.float _, PyVal.bool _ => isFalse (by intro h; cases h)
  | PyVal.float _, PyVal.int _ => isFalse (by intro h; cases h)
  | PyVal.float _, PyVal.str _ => isFalse (by intro h; cases h)
  | PyVal.float _, PyVal.list _ => isFalse (by intro h; cases h)
  | PyVal.float _, PyVal.dict _ => isFalse (by intro h; cases h)
  | PyVal.str _, PyVal.none => isFalse (by intro h; cases h)
  | PyVal.str _, PyVal.bool _ => isFalse (by intro h; cases h)
  | PyVal.str _, PyVal.int _ => isFalse (by intro h; cases h)
  | PyVal.str _, PyVal.float _ => isFalse (by intro h; cases h)
  | PyVal.str _, PyVal.list _ => isFalse (by intro h; cases h)
  | PyVal.str _, PyVal.dict _ => isFalse (by intro h; cases h)
  | PyVal.list _, PyVal.none => isFalse (by intro h; cases h)
  | PyVal.list _, PyVal.bool _ => isFalse (by intro h; cases h)
  | PyVal.list _, PyVal.int _ => isFalse (by intro h; cases h)
  | PyVal.list _, PyVal.float _ => isFalse (by intro h; cases h)
  | PyVal.list _, PyVal.str _ => isFalse (by intro h; cases h)
  | PyVal.list _, PyVal.dict _ => isFalse (by intro h; cases h)
  | PyVal.dict _, PyVal.none => isFalse (by intro h; cases h)
  | PyVal.dict _, PyVal.bool _ => isFalse (by intro h; cases h)
  | PyVal.dict _, PyVal.int _ => isFalse (by intro h; cases h)
  | PyVal.dict _, PyVal.float _ => isFalse (by intro h; cases h)
  | PyVal.dict _, PyVal.str _ => isFalse (by intro h; cases h)
  | PyVal.dict _, PyVal.list _ => isFalse (by intro h; cases h)

def pyListDecEq : (a b : List PyVal) → Decidable (a = b)
  | [], [] => isTrue rfl
  | [], _ :: _ => isFalse (by intro h; cases h)
  | _ :: _, [] => isFalse (by intro h; cases h)
  | a :: as, b :: bs =>
    match pyValDecEq a b, pyListDecEq as bs with
    | isTrue h1, isTrue h2 => isTrue (by rw [h1, h2])
    | isFalse h1, _ => isFalse (by intro he; cases he; exact h1 rfl)
    | _, isFalse h2 => isFalse (by intro he; cases he; exact h2 rfl)

def pyDictDecEq : (a b : List (String × PyVal)) → Decidable (a = b)
  | [], [] => isTrue rfl
  | [], _ :: _ => isFalse (by intro h; cases h)
  | _ :: _, [] => isFalse (by intro h; cases h)
  | (k1, v1) :: as, (k2, v2) :: bs =>
    match decEq k1 k2, pyValDecEq v1 v2, pyDictDecEq as bs with
    | isTrue h0, isTrue h1, isTrue h2 => isTrue (by rw [h0, h1, h2])
    | isFalse h0, _, _ => isFalse (by intro he; cases he; exact h0 rfl)
    | _, isFalse h1, _ => isFalse (by intro he; cases he; exact h1 rfl)
    | _, _, isFalse h2 => isFalse (by intro he; cases he; exact h2 rfl)

end

instance : DecidableEq PyVal := pyValDecEq

/-- Python dict assignment `m[k] = v`: update in place if the key exists
(keeping its position), otherwise append the new entry. -/
def dictInsert : List (String × PyVal) → String → PyVal → List (String × PyVal)
  | [], k, v => [(k, v)]
  | (k0, v0) :: rest, k, v =>
    if k0 = k then (k0, v) :: rest else (k0, v0) :: dictInsert rest k v

/-- Python dict lookup `m[k]` / membership `k in m`, as an `Option`. -/
def dictGet? : List (String × PyVal) → String → Option PyVal
  | [], _ => Option.none
  | (k0, v0) :: rest, k => if k0 = k then some v0 else dictGet? rest k

theorem stripL_length_le (l : List Char) : (stripL l).length ≤ l.length := by
  unfold stripL
  have h1 := (List.dropWhile_suffix (l := l) pyIsSpace).sublist.length_le
  have h2 := (List.dropWhile_suffix (l := (l.dropWhile pyIsSpace).reverse)
    pyIsSpace).sublist.length_le
  simp at *
  omega

theorem lex3 {a1 a2 b1 b2 c1 c2 : ℕ}
    (h : a1 < a2 ∨ (a1 = a2 ∧ (b1 < b2 ∨ (b1 = b2 ∧ c1 < c2)))) :
    Prod.Lex (· < ·) (Prod.Lex (· < ·) (· < ·)) (a1, b1, c1) (a2, b2, c2) := by
  rcases h with h | ⟨he, h | ⟨he2, h⟩⟩
  · exact Prod.Lex.left _ _ h
  · subst he
    exact Prod.Lex.right _ (Prod.Lex.left _ _ h)
  · subst he
    subst he2
    exact Prod.Lex.right _ (Prod.Lex.right _ h)

theorem matchWrap_length {pre v inner : List Char} (h : matchWrap pre v = some inner) :
    inner.length + pre.length + 1 = v.length := by
  simp only [matchWrap] at h
  split at h
  · split at h
    · rename_i hp ht
      cases h
      have hple : pre.length ≤ v.length :=
        (List.isPrefixOf_iff_prefix.mp hp).length_le
      have h1 : (v.drop pre.length).length = v.length - pre.length := by simp
      have h2 := List.length_dropLast (v.drop pre.length)
      omega
    · cases h
  · cases h

theorem matchNested_length {v tname inner : List Char}
    (h : matchNested v = some (tname, inner)) : inner.length + 3 ≤ v.length := by
  simp only [matchNested] at h
  split at h
  · cases h
  · rename_i hw
    split at h
    · rename_i t heq
      split at h
      · rename_i hcond
        cases h
        have hsplit := List.takeWhile_append_dropWhile (p := isWordChar) (l := v)
        have hlenv := congrArg List.length hsplit
        simp only [List.length_append] at hlenv
        have hw1 : 1 ≤ (v.takeWhile isWordChar).length := by
          cases hwl : v.takeWhile isWordChar with
          | nil => exact absurd hwl hw
          | cons a as => simp
        have hlt : (v.dropWhile isWordChar).length = t.length + 1 := by
          rw [heq]
          simp
        have hdl := List.length_dropLast t
        omega
      · cases h
    · cases h

theorem two_le_length_of_head_getLast {v : List Char} {a b : Char}
    (hh : v.head? = some a) (hl : v.getLast? = some b) (hne : a ≠ b) :
    2 ≤ v.length := by
  match v with
  | [] => cases hh
  | [c] =>
    simp at hh hl
    exact absurd (hh.symm.trans hl) hne
  | c1 :: c2 :: t => simp

mutual

/-- Embedding of `parse_value_recursive` (parse_transaction_text.py lines
20-120): the ordered rule set of the value classifier.  The `None`
argument guard of the Python signature cannot arise here since the
embedded argument is always a string. -/
def parse_value_recursive (value : List Char) : PyVal :=
  let v := stripL value
  if v = [] then PyVal.none
  else if lowerL v = "null".data ∨ lowerL v = "none".data then PyVal.none
  else if lowerL v = "true".data then PyVal.bool true
  else if lowerL v = "false".data then PyVal.bool false
  else if v = "JsonNullable[null]".data then PyVal.none
  else if v = "Optional[null]".data then PyVal.none
  else if v = "[]".data then PyVal.list []
  else
    match matchValueWrapper v with
    | some inner => PyVal.str (String.mk (stripL inner))
    | Option.none =>
      match hop : matchWrap "Optional[".data v with
      | some inner =>
        if lowerL inner = "null".data then PyVal.none else parse_value_recursive inner
      | Option.none =>
        match hjn : matchWrap "JsonNullable[".data v with
        | some inner =>
          if lowerL inner = "null".data then PyVal.none else parse_value_recursive inner
        | Option.none =>
          match hn : matchNested v with
          | some (tname, inner) =>
            let parsed := parse_fields_from_content inner
            if parsed = [] then parseRest v
            else PyVal.dict (dictInsert parsed "_type" (PyVal.str (String.mk tname)))
          | Option.none => parseRest v
termination_by (value.length, 1, 0)
decreasing_by
  · apply lex3
    have h1 := matchWrap_length hop
    have h2 := stripL_length_le value
    have hv : v.length = (stripL value).length := rfl
    have h3 : ("Optional[".data : List Char).length = 9 := rfl
    omega
  · apply lex3
    have h1 := matchWrap_length hjn
    have h2 := stripL_length_le value
    have hv : v.length = (stripL value).length := rfl
    have h3 : ("JsonNullable[".data : List Char).length = 13 := rfl
    omega
  · apply lex3
    have h1 := matchNested_length hn
    have h2 := stripL_length_le value
    have hv : v.length = (stripL value).length := rfl
    omega
  · apply lex3
    have h2 := stripL_length_le value
    have hv : v.length = (stripL value).length := rfl
    omega
  · apply lex3
    have h2 := stripL_length_le value
    have hv : v.length = (stripL value).length := rfl
    omega

/-- Embedding of the fall-through tail of `parse_value_recursive` (lines
96-120): the array, map, number and string rules.  Control reaches this
code both when no earlier rule matched and when the tagged-object rule
matched but produced an empty field mapping. -/
def parseRest (v : List Char) : PyVal :=
  if h1 : v.head? = some '[' ∧ v.getLast? = some ']' then
    let inner := stripL ((v.drop 1).dropLast)
    if inner = [] then PyVal.list [] else PyVal.list (parse_array_items inner)
  else if h2 : v.head? = some lbrace ∧ v.getLast? = some rbrace then
    let inner := stripL ((v.drop 1).dropLast)
    if inner = [] then PyVal.dict [] else PyVal.dict (parse_fields_from_content inner)
  else if ('.' ∈ v) then
    match pyFloat? v with
    | some q => PyVal.float q
    | Option.none => PyVal.str (String.mk v)
  else
    match pyInt? v with
    | some n => PyVal.int n
    | Option.none => PyVal.str (String.mk v)
termination_by (v.length, 0, 0)
decreasing_by
  · apply lex3
    have hv := two_le_length_of_head_getLast h1.1 h1.2 (by decide)
    have hs := stripL_length_le ((v.drop 1).dropLast)
    have hd : ((v.drop 1).dropLast).length = v.length - 1 - 1 := by
      simp
    omega
  · apply lex3
    have hv := two_le_length_of_head_getLast h2.1 h2.2 (by decide)
    have hs := stripL_length_le ((v.drop 1).dropLast)
    have hd : ((v.drop 1).dropLast).length = v.length - 1 - 1 := by
      simp
    omega

/-- Embedding of `parse_fields_from_content` (lines 123-191): initialize
the field-scanning loop state. -/
def parse_fields_from_content (content : List Char) : List (String × PyVal) :=
  pfcLoop content 0 [] [] true []
termination_by (content.length, 3, 0)
decreasing_by
  apply lex3
  simp

/-- Embedding of `parse_array_items` (lines 194-234): initialize the
array-scanning loop state. -/
def parse_array_items (content : List Char) : List PyVal :=
  paiLoop content 0 []
termination_by (content.length, 3, 0)
decreasing_by
  apply lex3
  simp

/-- The `while` loop of `parse_fields_from_content` (lines 141-189), as a
recursion over the remaining characters.  State: remaining input,
bracket depth, accumulated field name, accumulated value, the `in_field`
flag, and the fields mapping built so far. -/
def pfcLoop (rest : List Char) (d : ℤ) (curF curV : List Char) (inF : Bool)
    (fields : List (String × PyVal)) : List (String × PyVal) :=
  match rest with
  | [] =>
    let name := stripL curF
    if name = [] then fields
    else dictInsert fields (String.mk name) (parse_value_recursive (stripL curV))
  | c :: rs =>
    if c = '[' ∨ c = lbrace then
      pfcLoop rs (d + 1) (if inF then curF ++ [c] else curF)
        (if inF then curV else curV ++ [c]) inF fields
    else if c = ']' ∨ c = rbrace then
      pfcLoop rs (d - 1) (if inF then curF ++ [c] else curF)
        (if inF then curV else curV ++ [c]) inF fields
    else if c = '=' ∧ d = 0 ∧ inF = true then
      pfcLoop rs d curF curV false fields
    else if c = ',' ∧ d = 0 then
      let name := stripL curF
      if name = [] then pfcLoop rs d [] [] true fields
      else pfcLoop rs d [] [] true
        (dictInsert fields (String.mk name) (parse_value_recursive (stripL curV)))
    else
      pfcLoop rs d (if inF then curF ++ [c] else curF)
        (if inF then curV else curV ++ [c]) inF fields
termination_by (rest.length + curF.length + curV.length, 2, rest.length)
decreasing_by
  all_goals apply lex3
  all_goals have hs := stripL_length_le curV
  all_goals cases inF <;> simp <;> omega

/-- The `while` loop of `parse_array_items` (lines 210-232), as a
recursion over the remaining characters.  State: remaining input,
bracket depth, and the accumulated current item. -/
def paiLoop (rest : List Char) (d : ℤ) (cur : List Char) : List PyVal :=
  match rest with
  | [] =>
    let item := stripL cur
    if item = [] then [] else [parse_value_recursive item]
  | c :: rs =>
    if c = '[' ∨ c = lbrace then paiLoop rs (d + 1) (cur ++ [c])
    else if c = ']' ∨ c = rbrace then paiLoop rs (d - 1) (cur ++ [c])
    else if c = ',' ∧ d = 0 then
      let item := stripL cur
      if item = [] then paiLoop rs d []
      else parse_value_recursive item :: paiLoop rs d []
    else paiLoop rs d (cur ++ [c])
termination_by (rest.length + cur.length, 2, rest.length)
decreasing_by
  all_goals apply lex3
  all_goals have hs := stripL_length_le cur
  all_goals simp <;> omega

end

mutual

/-- Fuel-indexed twin of `parse_value_recursive`, structurally recursive
on the fuel so that the kernel can evaluate it on concrete inputs.
Returns `none` exactly when the fuel runs out. -/
def parse_value_recursiveF : ℕ → List Char → Option PyVal
  | 0, _ => Option.none
  | n + 1, value =>
    let v := stripL value
    if v = [] then some PyVal.none
    else if lowerL v = "null".data ∨ lowerL v = "none".data then some PyVal.none
    else if lowerL v = "true".data then some (PyVal.bool true)
    else if lowerL v = "false".data then some (PyVal.bool false)
    else if v = "JsonNullable[null]".data then some PyVal.none
    else if v = "Optional[null]".data then some PyVal.none
    else if v = "[]".data then some (PyVal.list [])
    else
      match matchValueWrapper v with
      | some inner => some (PyVal.str (String.mk (stripL inner)))
      | Option.none =>
        match matchWrap "Optional[".data v with
        | some inner =>
          if lowerL inner = "null".data then some PyVal.none
          else parse_value_recursiveF n inner
        | Option.none =>
          match matchWrap "JsonNullable[".data v with
          | some inner =>
            if lowerL inner = "null".data then some PyVal.none
            else parse_value_recursiveF n inner
          | Option.none =>
            match matchNested v with
            | some (tname, inner) =>
              match parse_fields_from_contentF n inner with
              | some parsed =>
                if parsed = [] then parseRestF n v
                else some (PyVal.dict (dictInsert parsed "_type" (PyVal.str (String.mk tname))))
              | Option.none => Option.none
            | Option.none => parseRestF n v

/-- Fuel-indexed twin of `parseRest`. -/
def parseRestF : ℕ → List Char → Option PyVal
  | 0, _ => Option.none
  | n + 1, v =>
    if v.head? = some '[' ∧ v.getLast? = some ']' then
      let inner := stripL ((v.drop 1).dropLast)
      if inner = [] then some (PyVal.list [])
      else (parse_array_itemsF n inner).map PyVal.list
    else if v.head? = some lbrace ∧ v.getLast? = some rbrace then
      let inner := stripL ((v.drop 1).dropLast)
      if inner = [] then some (PyVal.dict [])
      else (parse_fields_from_contentF n inner).map PyVal.dict
    else if ('.' ∈ v) then
      match pyFloat? v with
      | some q => some (PyVal.float q)
      | Option.none => some (PyVal.str (String.mk v))
    else
      match pyInt? v with
      | some k => some (PyVal.int k)
      | Option.none => some (PyVal.str (String.mk v))

/-- Fuel-indexed twin of `parse_fields_from_content`. -/
def parse_fields_from_contentF : ℕ → List Char → Option (List (String × PyVal))
  | 0, _ => Option.none
  | n + 1, content => pfcLoopF n content 0 [] [] true []

/-- Fuel-indexed twin of `parse_array_items`. -/
def parse_array_itemsF : ℕ → List Char → Option (List PyVal)
  | 0, _ => Option.none
  | n + 1, content => paiLoopF n content 0 []

/-- Fuel-indexed twin of `pfcLoop`. -/
def pfcLoopF : ℕ → List Char → ℤ → List Char → List Char → Bool →
    List (String × PyVal) → Option (List (String × PyVal))
  | 0, _, _, _, _, _, _ => Option.none
  | n + 1, [], _, curF, curV, _, fields =>
    let name := stripL curF
    if name = [] then some fields
    else (parse_value_recursiveF n (stripL curV)).map
      (fun pv => dictInsert fields (String.mk name) pv)
  | n + 1, c :: rs, d, curF, curV, inF, fields =>
    if c = '[' ∨ c = lbrace then
      pfcLoopF n rs (d + 1) (if inF then curF ++ [c] else curF)
        (if inF then curV else curV ++ [c]) inF fields
    else if c = ']' ∨ c = rbrace then
      pfcLoopF n rs (d - 1) (if inF then curF ++ [c] else curF)
        (if inF then curV else curV ++ [c]) inF fields
    else if c = '=' ∧ d = 0 ∧ inF = true then
      pfcLoopF n rs d curF curV false fields
    else if c = ',' ∧ d = 0 then
      let name := stripL curF
      if name = [] then pfcLoopF n rs d [] [] true fields
      else
        match parse_value_recursiveF n (stripL curV) with
        | some pv => pfcLoopF n rs d [] [] true (dictInsert fields (String.mk name) pv)
        | Option.none => Option.none
    else
      pfcLoopF n rs d (if inF then curF ++ [c] else curF)
        (if inF then curV else curV ++ [c]) inF fields

/-- Fuel-indexed twin of `paiLoop`. -/
def paiLoopF : ℕ → List Char → ℤ → List Char → Option (List PyVal)
  | 0, _, _, _ => Option.none
  | n + 1, [], _, cur =>
    let item := stripL cur
    if item = [] then some []
    else (parse_value_recursiveF n item).map (fun pv => [pv])
  | n + 1, c :: rs, d, cur =>
    if c = '[' ∨ c = lbrace then paiLoopF n rs (d + 1) (cur ++ [c])
    else if c = ']' ∨ c = rbrace then paiLoopF n rs (d - 1) (cur ++ [c])
    else if c = ',' ∧ d = 0 then
      let item := stripL cur
      if item = [] then paiLoopF n rs d []
      else
        match parse_value_recursiveF n item with
        | some pv => (paiLoopF n rs d []).map (fun xs => pv :: xs)
        | Option.none => Option.none
    else paiLoopF n rs d (cur ++ [c])

end

set_option maxHeartbeats 2000000 in
/-- Bridge: whenever a fuel-indexed twin returns a result, the primary
well-founded definition returns the same result.  This lets concrete
evaluations be carried out by the kernel on the structural twins and
transferred to the primary definitions. -/
theorem bridgeF : ∀ n : ℕ,
    (∀ value r, parse_value_recursiveF n value = some r → parse_value_recursive value = r) ∧
    (∀ v r, parseRestF n v = some r → parseRest v = r) ∧
    (∀ c r, parse_fields_from_contentF n c = some r → parse_fields_from_content c = r) ∧
    (∀ c r, parse_array_itemsF n c = some r → parse_array_items c = r) ∧
    (∀ rest d curF curV inF fields r, pfcLoopF n rest d curF curV inF fields = some r →
      pfcLoop rest d curF curV inF fields = r) ∧
    (∀ rest d cur r, paiLoopF n rest d cur = some r → paiLoop rest d cur = r) := by
  intro n
  induction n with
  | zero =>
    refine ⟨?_, ?_, ?_, ?_, ?_, ?_⟩ <;> intro  <;> intro  <;> simp [parse_value_recursiveF,
      parseRestF, parse_fields_from_contentF, parse_array_itemsF, pfcLoopF, paiLoopF]
  | succ n ih =>
    obtain ⟨ih1, ih2, ih3, ih4, ih5, ih6⟩ := ih
    refine ⟨?_, ?_, ?_, ?_, ?_, ?_⟩
    · intro value r h
      simp only [parse_value_recursiveF] at h
      rw [parse_value_recursive.eq_def]
      simp only []
      split_ifs at h ⊢ <;> try (exact Option.some.inj h)
      revert h
      cases hmv : matchValueWrapper (stripL value) with
      | some inner =>
        intro h
        exact Option.some.inj h
      | none =>
        intro h
        revert h
        cases hopt : matchWrap "Optional[".data (stripL value) with
        | some inner =>
          intro h
          dsimp only at h ⊢
          split_ifs at h ⊢
          · exact Option.some.inj h
          · exact ih1 inner r h
        | none =>
          intro h
          revert h
          cases hjn2 : matchWrap "JsonNullable[".data (stripL value) with
          | some inner =>
            intro h
            dsimp only at h ⊢
            split_ifs at h ⊢
            · exact Option.some.inj h
            · exact ih1 inner r h
          | none =>
            intro h
            revert h
            cases hn2 : matchNested (stripL value) with
            | some pr =>
              obtain ⟨tname, inner⟩ := pr
              intro h
              dsimp only at h ⊢
              revert h
              cases hpf : parse_fields_from_contentF n inner with
              | none =>
                intro h
                exact Option.noConfusion h
              | some parsed =>
                intro h
                dsimp only at h ⊢
                rw [ih3 inner parsed hpf]
                split_ifs at h ⊢
                · exact ih2 _ _ h
                · exact Option.some.inj h
            | none =>
              intro h
              exact ih2 _ _ h
    · intro v r h
      simp only [parseRestF] at h
      rw [parseRest.eq_def]
      simp only []
      split_ifs at h ⊢ <;> try (exact Option.some.inj h)
      · revert h
        cases ha : parse_array_itemsF n (stripL ((v.drop 1).dropLast)) with
        | none =>
          intro h
          exact Option.noConfusion h
        | some xs =>
          intro h
          dsimp only [Option.map] at h
          rw [ih4 _ _ ha]
          exact Option.some.inj h
      · revert h
        cases hf : parse_fields_from_contentF n (stripL ((v.drop 1).dropLast)) with
        | none =>
          intro h
          exact Option.noConfusion h
        | some m =>
          intro h
          dsimp only [Option.map] at h
          rw [ih3 _ _ hf]
          exact Option.some.inj h
      · revert h
        cases hq : pyFloat? v with
        | none =>
          intro h
          exact Option.some.inj h
        | some q =>
          intro h
          exact Option.some.inj h
      · revert h
        cases hk : pyInt? v with
        | none =>
          intro h
          exact Option.some.inj h
        | some k =>
          intro h
          exact Option.some.inj h
    · intro c r h
      simp only [parse_fields_from_contentF] at h
      rw [parse_fields_from_content.eq_def]
      exact ih5 _ _ _ _ _ _ _ h
    · intro c r h
      simp only [parse_array_itemsF] at h
      rw [parse_array_items.eq_def]
      exact ih6 _ _ _ _ h
    · intro rest d curF curV inF fields r h
      cases rest with
      | nil =>
        simp only [pfcLoopF] at h
        simp only [pfcLoop]
        split_ifs at h ⊢
        · exact Option.some.inj h
        · revert h
          cases hc : parse_value_recursiveF n (stripL curV) with
          | none =>
            intro h
            exact Option.noConfusion h
          | some pv =>
            intro h
            dsimp only [Option.map] at h
            rw [ih1 _ _ hc]
            exact Option.some.inj h
      | cons c2 rs =>
        simp only [pfcLoopF] at h
        simp only [pfcLoop]
        split_ifs at h ⊢ <;> try (exact ih5 _ _ _ _ _ _ _ h)
        revert h
        cases hc : parse_value_recursiveF n (stripL curV) with
        | none =>
          intro h
          exact Option.noConfusion h
        | some pv =>
          intro h
          dsimp only at h
          rw [ih1 _ _ hc]
          exact ih5 _ _ _ _ _ _ _ h
    · intro rest d cur r h
      cases rest with
      | nil =>
        simp only [paiLoopF] at h
        simp only [paiLoop]
        split_ifs at h ⊢
        · exact Option.some.inj h
        · revert h
          cases hc : parse_value_recursiveF n (stripL cur) with
          | none =>
            intro h
            exact Option.noConfusion h
          | some pv =>
            intro h
            dsimp only [Option.map] at h
            rw [ih1 _ _ hc]
            exact Option.some.inj h
      | cons c2 rs =>
        simp only [paiLoopF] at h
        simp only [paiLoop]
        split_ifs at h ⊢ <;> try (exact ih6 _ _ _ _ h)
        revert h
        cases hc : parse_value_recursiveF n (stripL cur) with
        | none =>
          intro h
          exact Option.noConfusion h
        | some pv =>
          intro h
          dsimp only at h
          revert h
          cases hrest : paiLoopF n rs d [] with
          | none =>
            intro h
            exact Option.noConfusion h
          | some xs =>
            intro h
            dsimp only [Option.map] at h
            rw [ih1 _ _ hc, ih6 _ _ _ _ hrest]
            exact Option.some.inj h

/-- The Python truthiness test of the `remove_nulls` dict comprehension
(line 264): `v is not None and (not isinstance(v, dict) or v) and
(not isinstance(v, list) or v)`. -/
def keepEntry (v : PyVal) : Bool :=
  (match v with | PyVal.none => false | _ => true) &&
  (match v with | PyVal.dict m => !m.isEmpty | _ => true) &&
  (match v with | PyVal.list xs => !xs.isEmpty | _ => true)

mutual

/-- Embedding of `remove_nulls` (lines 250-268): recursively filter null
values out of dicts and lists.  A dict entry is kept iff its original
value is truthy under the Python test
`v is not None and (not isinstance(v, dict) or v) and (not isinstance(v, list) or v)`;
the stored value is `remove_nulls` of the original.  List items are
dropped iff they are `None`, before recursion. -/
def remove_nulls : PyVal → PyVal
  | PyVal.dict m => PyVal.dict (removeNullsFields m)
  | PyVal.list xs => PyVal.list (removeNullsItems xs)
  | v => v

/-- The dict comprehension of `remove_nulls` (lines 261-265). -/
def removeNullsFields : List (String × PyVal) → List (String × PyVal)
  | [] => []
  | (k, v) :: rest =>
    if keepEntry v then (k, remove_nulls v) :: removeNullsFields rest
    else removeNullsFields rest

/-- The list comprehension of `remove_nulls` (line 267). -/
def removeNullsItems : List PyVal → List PyVal
  | [] => []
  | v :: rest =>
    if v = PyVal.none then removeNullsItems rest
    else remove_nulls v :: removeNullsItems rest

end

mutual

/-- Python `repr()` of a parsed value, used by `str()` on non-string
values.  Scalar cases are exact (`None`, `True`, `False`, decimal
integers); the float case and the quote choice for nested strings are
best-effort renderings — no verified claim depends on them, since the
record extractor only stringifies `None` and string values. -/
def pyRepr : PyVal → List Char
  | PyVal.none => "None".data
  | PyVal.bool true => "True".data
  | PyVal.bool false => "False".data
  | PyVal.int n => (toString n).data
  | PyVal.float q => (toString q.num).data ++ '/' :: (toString q.den).data
  | PyVal.str s => Char.ofNat 39 :: s.data ++ [Char.ofNat 39]
  | PyVal.list xs => '[' :: pyReprList xs ++ [']']
  | PyVal.dict m => lbrace :: pyReprDict m ++ [rbrace]

/-- Comma-joined reprs of list items. -/
def pyReprList : List PyVal → List Char
  | [] => []
  | [v] => pyRepr v
  | v :: rest => pyRepr v ++ ", ".data ++ pyReprList rest

/-- Comma-joined reprs of dict entries. -/
def pyReprDict : List (String × PyVal) → List Char
  | [] => []
  | [(k, v)] => Char.ofNat 39 :: k.data ++ [Char.ofNat 39] ++ ": ".data ++ pyRepr v
  | (k, v) :: rest =>
    Char.ofNat 39 :: k.data ++ [Char.ofNat 39] ++ ": ".data ++ pyRepr v ++ ", ".data ++
      pyReprDict rest

end

/-- Python `str()` of a parsed value. -/
def pyStr (v : PyVal) : List Char :=
  match v with
  | PyVal.str s => s.data
  | _ => pyRepr v

/-- Embedding of `normalize_status` (lines 271-293): lower-case the
stringified status and test substrings in priority order; on no match
return the stringified status unchanged; `None` becomes `"unknown"`. -/
def normalize_status (status : PyVal) : List Char :=
  match status with
  | PyVal.none => "unknown".data
  | _ =>
    let s := lowerL (pyStr status)
    if containsSub s "succeeded".data ∨ containsSub s "success".data then "success".data
    else if containsSub s "failed".data ∨ containsSub s "failure".data then "failed".data
    else if containsSub s "pending".data then "pending".data
    else if containsSub s "cancelled".data ∨ containsSub s "canceled".data then "cancelled".data
    else if containsSub s "refunded".data then "refunded".data
    else if containsSub s "voided".data then "voided".data
    else pyStr status

/-- Python `int(x)` applied to a float value: truncation toward zero. -/
def pyTrunc (q : ℚ) : ℤ := if 0 ≤ q then ⌊q⌋ else ⌈q⌉

/-- Python `float(x)` applied to a parsed value: numbers coerce, booleans
become 0/1, strings are parsed (stripped first), and `None`/lists/dicts
raise `TypeError` (modelled as `none`).  Idealization: the coercion is
modelled as exact on every integer, whereas CPython `float(n)` raises an
uncaught `OverflowError` once `|n|` reaches `2^1024 - 2^970` (about
1.8e308), and the special spellings inf/infinity/nan (and literals whose
exact value lies beyond the double range, which CPython turns into an
infinite float that `int()` then rejects with `OverflowError`) are
modelled as parse failures rather than as infinite floats.  The crash
paths of `convert_amount` that this collapses are recorded as code bugs
(claims C7 and C8), not silently absorbed into theorems. -/
def pyFloatCoerce : PyVal → Option ℚ
  | PyVal.none => Option.none
  | PyVal.bool b => some (if b then 1 else 0)
  | PyVal.int n => some (n : ℚ)
  | PyVal.float q => some q
  | PyVal.str s => pyFloat? (stripL s.data)
  | PyVal.list _ => Option.none
  | PyVal.dict _ => Option.none

/-- Embedding of `convert_amount` (lines 296-311): coerce to float; a
whole number with absolute value at least 100 is divided by 100;
conversion failure (and `None`) yields 0.0. -/
def convert_amount (amount : PyVal) : ℚ :=
  match amount with
  | PyVal.none => 0
  | _ =>
    match pyFloatCoerce amount with
    | Option.none => 0
    | some value =>
      if value = (pyTrunc value : ℚ) ∧ 100 ≤ |value| then value / 100 else value

/-- Embedding of `parse_transaction_text` (lines 314-384): strip the
input, match the `Transaction[...]` envelope (regex
`^\s*Transaction\[(.+)\]\s*$`, DOTALL, on the stripped text), parse the
fields, and build the result dict; `None` (here `Option.none`) models
every failure path.  The embedding is total and exception-free; the real
code can additionally abort with an uncaught `OverflowError` (amount
conversion on out-of-double-range or infinite values, bug C8) or a
`RecursionError` (deep nesting, bug C3), crash paths this idealization
does not represent. -/
def parse_transaction_text (text : List Char) : Option (List (String × PyVal)) :=
  if stripL text = [] then Option.none
  else
    let t := stripL text
    match matchWrap "Transaction[".data t with
    | Option.none => Option.none
    | some content =>
      let json_full := parse_fields_from_content content
      if json_full = [] then Option.none
      else
        let json_compact := remove_nulls (PyVal.dict json_full)
        let r0 : List (String × PyVal) := []
        let r1 := match dictGet? json_full "id" with
          | some v => r0 ++ [("transaction_id", v)]
          | Option.none => r0
        let r2 := match dictGet? json_full "createdAt" with
          | some v => r1 ++ [("timestamp", v)]
          | Option.none =>
            match dictGet? json_full "updatedAt" with
            | some v => r1 ++ [("timestamp", v)]
            | Option.none => r1
        let r3 := match dictGet? json_full "status" with
          | some v => r2 ++ [("status", PyVal.str (String.mk (normalize_status v)))]
          | Option.none => r2
        let r4 := match dictGet? json_full "amount" with
          | some v => r3 ++ [("amount", PyVal.float (convert_amount v))]
          | Option.none => r3
        let r5 := match dictGet? json_full "currency" with
          | some v => r4 ++ [("currency", v)]
          | Option.none => r4
        some (r5 ++ [("raw_text", PyVal.str (String.mk t)),
          ("json_full", PyVal.dict json_full), ("json_compact", json_compact)])

/-- The zero-width split `re.split(r'(?=Transaction\[)', text)` of
`parse_multiple_transactions` (line 404): cut immediately before every
occurrence of the literal `Transaction[`. -/
def reSplitAux : List Char → List Char → List (List Char)
  | [], cur => [cur]
  | c :: rest, cur =>
    if "Transaction[".data.isPrefixOf (c :: rest) then cur :: reSplitAux rest [c]
    else reSplitAux rest (cur ++ [c])

/-- Entry point of the zero-width split. -/
def reSplitTransaction (s : List Char) : List (List Char) := reSplitAux s []

/-- The chunking stage of `parse_multiple_transactions` (lines 404-409):
split before each `Transaction[`, strip each part, and drop empty parts.
This is the Batch Splitter component of the specification. -/
def split_records (blob : List Char) : List (List Char) :=
  ((reSplitTransaction blob).map stripL).filter (fun c => ¬(c = []))

/-- Embedding of `parse_multiple_transactions` (lines 387-415): parse
each non-empty chunk independently, keeping the successful results. -/
def parse_multiple_transactions (text : List Char) : List (List (String × PyVal)) :=
  (split_records text).filterMap parse_transaction_text

/-- Splitter of specification section 4.1 (`split_top_level`), auxiliary
scan: emit a boundary at each separator seen at depth 0; all brackets
adjust the depth and every other character is copied into the current
segment. -/
def splitTLAux (sep : Char) : List Char → ℤ → List Char → List (List Char)
  | [], _, cur => [cur]
  | c :: rest, d, cur =>
    if c = sep ∧ d = 0 then cur :: splitTLAux sep rest d []
    else splitTLAux sep rest (d + bracketDelta c) (cur ++ [c])

/-- Specification section 4.1: `split_top_level(content, sep)`.  Fully
empty content yields zero segments. -/
def split_top_level (content : List Char) (sep : Char) : List (List Char) :=
  if content = [] then [] else splitTLAux sep content 0 []

/-- Split one segment at its first `=` occurring at bracket depth 0
(depth counted from 0 at the start of the segment); if there is none the
whole segment is the name and the value is empty. -/
def segSplitAux : List Char → ℤ → List Char → List Char × List Char
  | [], _, acc => (acc, [])
  | c :: rest, d, acc =>
    if c = '=' ∧ d = 0 then (acc, rest)
    else segSplitAux rest (d + bracketDelta c) (acc ++ [c])

/-- Name/value split of one field segment. -/
def segSplit (seg : List Char) : List Char × List Char := segSplitAux seg 0 []

/-- Processing of one comma segment by the field-map parser: split at the
first top-level `=`, discard the pair when the trimmed name is empty,
otherwise insert the classified trimmed value under the trimmed name. -/
def pfcStep (m : List (String × PyVal)) (seg : List Char) : List (String × PyVal) :=
  let p := segSplit seg
  let name := stripL p.1
  if name = [] then m
  else dictInsert m (String.mk name) (parse_value_recursive (stripL p.2))

/-- Does the segment contain an `=` at bracket depth 0 (depth counted
from the start of the segment)? -/
def hasTopLevelEqAux : List Char → ℤ → Bool
  | [], _ => false
  | c :: rest, d =>
    if c = '=' ∧ d = 0 then true else hasTopLevelEqAux rest (d + bracketDelta c)

/-- Top-level `=` test for one segment. -/
def hasTopLevelEq (seg : List Char) : Bool := hasTopLevelEqAux seg 0

/-- Keep-condition of claim C1, stated in the words of the specification:
an entry is kept iff its original value is not `Null`, not an empty
`Array`, and not an `Object` with an empty field mapping. -/
def keepSpec (v : PyVal) : Prop :=
  ¬(v = PyVal.none) ∧ ¬(v = PyVal.list []) ∧ ¬(v = PyVal.dict [])

instance (v : PyVal) : Decidable (keepSpec v) := by
  unfold keepSpec
  infer_instance

/-- Nested wrapper literals `Optional[Optional[...[5]...]]` of the given
depth, used to exercise recursion depth. -/
def mkNested : ℕ → List Char
  | 0 => "5".data
  | n + 1 => "Optional[".data ++ mkNested n ++ [']']

theorem keepEntry_eq_keepSpec (v : PyVal) : keepEntry v = decide (keepSpec v) := by
  cases v with
  | none => simp [keepEntry, keepSpec]
  | bool b => simp [keepEntry, keepSpec]
  | int n => simp [keepEntry, keepSpec]
  | float q => simp [keepEntry, keepSpec]
  | str s => simp [keepEntry, keepSpec]
  | list xs => cases xs <;> simp [keepEntry, keepSpec]
  | dict m => cases m <;> simp [keepEntry, keepSpec]

theorem removeNullsFields_eq_filter (m : List (String × PyVal)) :
    removeNullsFields m =
      (m.filter (fun p => decide (keepSpec p.2))).map (fun p => (p.1, remove_nulls p.2)) := by
  induction m with
  | nil => simp [removeNullsFields]
  | cons p rest ih =>
    obtain ⟨k, v⟩ := p
    rw [removeNullsFields]
    rw [keepEntry_eq_keepSpec]
    by_cases hk : keepSpec v
    · simp [List.filter_cons, hk, ih]
    · simp [List.filter_cons, hk, ih]

theorem pyTrunc_eq_iff (q : ℚ) : q = (pyTrunc q : ℚ) ↔ q.den = 1 := by
  constructor
  · intro h
    rw [h]
    exact Rat.den_intCast _
  · intro h
    obtain ⟨z, hz⟩ : ∃ z : ℤ, q = (z : ℚ) := ⟨q.num, (Rat.den_eq_one_iff q).mp h |>.symm⟩
    subst hz
    unfold pyTrunc
    split_ifs
    · rw [Int.floor_intCast]
    · rw [Int.ceil_intCast]

theorem classify_eval {n : ℕ} {value : List Char} {r : PyVal}
    (h : parse_value_recursiveF n value = some r) : parse_value_recursive value = r :=
  (bridgeF n).1 value r h

theorem pfc_eval {n : ℕ} {c : List Char} {r : List (String × PyVal)}
    (h : parse_fields_from_contentF n c = some r) : parse_fields_from_content c = r :=
  (bridgeF n).2.2.1 c r h

/-- C1: for every value tree, the null pruner keeps an object entry iff
its original (pre-pruning) value is not `Null`, not an empty array and
not an object with an empty field mapping, and stores the pruned
original value for each kept key; the emptiness check is not redone
after pruning, so `{a: Null, b: Object({x: Null})}` prunes to
`{b: Object({})}`. -/
theorem claim_C1_null_pruner :
    (∀ m : List (String × PyVal), remove_nulls (PyVal.dict m) =
      PyVal.dict ((m.filter (fun p => decide (keepSpec p.2))).map
        (fun p => (p.1, remove_nulls p.2)))) ∧
    remove_nulls (PyVal.dict [("a", PyVal.none), ("b", PyVal.dict [("x", PyVal.none)])]) =
      PyVal.dict [("b", PyVal.dict [])] := by
  constructor
  · intro m
    rw [remove_nulls]
    rw [removeNullsFields_eq_filter]
  · simp [remove_nulls, removeNullsFields, keepEntry]

/-- The amount-conversion heuristic in the exact-rational idealization:
a numeric value maps to itself divided by 100 exactly when it is a whole
number of absolute value at least 100, and is unchanged otherwise; in
particular 1591 becomes 15.91, 50 stays 50 and 100 becomes 1.  This
covers only values within the IEEE double range: past it the real
`convert_amount` crashes (see the C7 overflow theorem). -/
theorem convert_amount_heuristic :
    (∀ q : ℚ, convert_amount (PyVal.float q) =
      if q.den = 1 ∧ 100 ≤ |q| then q / 100 else q) ∧
    (∀ n : ℤ, convert_amount (PyVal.int n) =
      if 100 ≤ |n| then (n : ℚ) / 100 else (n : ℚ)) ∧
    convert_amount (PyVal.int 1591) = 1591 / 100 ∧
    convert_amount (PyVal.int 50) = 50 ∧
    convert_amount (PyVal.int 100) = 1 := by
  have hfloat : ∀ q : ℚ, convert_amount (PyVal.float q) =
      if q.den = 1 ∧ 100 ≤ |q| then q / 100 else q := by
    intro q
    show (if q = (pyTrunc q : ℚ) ∧ 100 ≤ |q| then q / 100 else q) = _
    simp only [pyTrunc_eq_iff]
  have hint : ∀ n : ℤ, convert_amount (PyVal.int n) =
      if 100 ≤ |n| then (n : ℚ) / 100 else (n : ℚ) := by
    intro n
    show (if (n : ℚ) = (pyTrunc (n : ℚ) : ℚ) ∧ 100 ≤ |(n : ℚ)| then (n : ℚ) / 100 else (n : ℚ)) = _
    simp only [pyTrunc_eq_iff]
    have hden : ((n : ℚ)).den = 1 := Rat.den_intCast n
    have habs : |(n : ℚ)| = (|n| : ℚ) := by
      push_cast
      rfl
    have hle : ((100 : ℚ) ≤ (|n| : ℚ)) ↔ (100 ≤ |n|) := by
      exact_mod_cast Iff.rfl
    simp only [hden, habs, hle, true_and]
  refine ⟨hfloat, hint, ?_, ?_, ?_⟩
  · rw [hint 1591]
    norm_num
  · rw [hint 50]
    norm_num
  · rw [hint 100]
    norm_num

/-- C6: status normalization lower-cases the stringified value and tests
substrings in fixed priority order, first match winning —
succeeded/success, failed/failure, pending, cancelled/canceled,
refunded, voided — and returns the original stringified value unchanged
(case preserved) when no substring matches; in particular
`authorization_succeeded` gives `success`, `refunded_partially` gives
`refunded`, and `weird` is returned unchanged. -/
theorem claim_C6_status_normalization :
    (∀ s : List Char,
      ((containsSub (lowerL s) "succeeded".data ∨ containsSub (lowerL s) "success".data) →
        normalize_status (PyVal.str (String.mk s)) = "success".data) ∧
      (¬(containsSub (lowerL s) "succeeded".data ∨ containsSub (lowerL s) "success".data) →
        (containsSub (lowerL s) "failed".data ∨ containsSub (lowerL s) "failure".data) →
        normalize_status (PyVal.str (String.mk s)) = "failed".data) ∧
      (¬(containsSub (lowerL s) "succeeded".data ∨ containsSub (lowerL s) "success".data) →
        ¬(containsSub (lowerL s) "failed".data ∨ containsSub (lowerL s) "failure".data) →
        containsSub (lowerL s) "pending".data →
        normalize_status (PyVal.str (String.mk s)) = "pending".data) ∧
      (¬(containsSub (lowerL s) "succeeded".data ∨ containsSub (lowerL s) "success".data) →
        ¬(containsSub (lowerL s) "failed".data ∨ containsSub (lowerL s) "failure".data) →
        ¬containsSub (lowerL s) "pending".data →
        (containsSub (lowerL s) "cancelled".data ∨ containsSub (lowerL s) "canceled".data) →
        normalize_status (PyVal.str (String.mk s)) = "cancelled".data) ∧
      (¬(containsSub (lowerL s) "succeeded".data ∨ containsSub (lowerL s) "success".data) →
        ¬(containsSub (lowerL s) "failed".data ∨ containsSub (lowerL s) "failure".data) →
        ¬containsSub (lowerL s) "pending".data →
        ¬(containsSub (lowerL s) "cancelled".data ∨ containsSub (lowerL s) "canceled".data) →
        containsSub (lowerL s) "refunded".data →
        normalize_status (PyVal.str (String.mk s)) = "refunded".data) ∧
      (¬(containsSub (lowerL s) "succeeded".data ∨ containsSub (lowerL s) "success".data) →
        ¬(containsSub (lowerL s) "failed".data ∨ containsSub (lowerL s) "failure".data) →
        ¬containsSub (lowerL s) "pending".data →
        ¬(containsSub (lowerL s) "cancelled".data ∨ containsSub (lowerL s) "canceled".data) →
        ¬containsSub (lowerL s) "refunded".data →
        containsSub (lowerL s) "voided".data →
        normalize_status (PyVal.str (String.mk s)) = "voided".data) ∧
      (¬(containsSub (lowerL s) "succeeded".data ∨ containsSub (lowerL s) "success".data) →
        ¬(containsSub (lowerL s) "failed".data ∨ containsSub (lowerL s) "failure".data) →
        ¬containsSub (lowerL s) "pending".data →
        ¬(containsSub (lowerL s) "cancelled".data ∨ containsSub (lowerL s) "canceled".data) →
        ¬containsSub (lowerL s) "refunded".data →
        ¬containsSub (lowerL s) "voided".data →
        normalize_status (PyVal.str (String.mk s)) = s)) ∧
    normalize_status (PyVal.str "authorization_succeeded") = "success".data ∧
    normalize_status (PyVal.str "refunded_partially") = "refunded".data ∧
    normalize_status (PyVal.str "weird") = "weird".data := by
  refine ⟨?_, rfl, rfl, rfl⟩
  intro s
  have hps : pyStr (PyVal.str (String.mk s)) = s := rfl
  refine ⟨?_, ?_, ?_, ?_, ?_, ?_, ?_⟩ <;>
    (intros
     simp only [normalize_status, hps]
     split_ifs <;> simp_all)

theorem isWordChar_not_space {c : Char} (h : isWordChar c = true) : pyIsSpace c = false := by
  by_contra hs
  have hs2 : pyIsSpace c = true := by
    cases hps : pyIsSpace c
    · exact absurd hps hs
    · rfl
  simp only [pyIsSpace, decide_eq_true_eq] at hs2
  rcases hs2 with rfl | rfl | rfl | rfl | rfl | rfl <;> revert h <;> decide

theorem dropWhile_eq_self_of_head {p : Char → Bool} {l : List Char}
    (h : ∀ c, l.head? = some c → p c = false) : l.dropWhile p = l := by
  cases l with
  | nil => rfl
  | cons a t =>
    rw [List.dropWhile_cons_of_neg]
    simp [h a rfl]

theorem stripL_eq_self {l : List Char}
    (hh : ∀ c, l.head? = some c → pyIsSpace c = false)
    (hl : ∀ c, l.getLast? = some c → pyIsSpace c = false) : stripL l = l := by
  unfold stripL
  rw [dropWhile_eq_self_of_head hh]
  rw [dropWhile_eq_self_of_head (by
    intro c hc
    rw [List.head?_reverse] at hc
    exact hl c hc)]
  exact List.reverse_reverse l

theorem takeWhile_append_all {p : Char → Bool} {a b : List Char}
    (h : ∀ c ∈ a, p c = true) (h2 : ∀ c, b.head? = some c → p c = false) :
    (a ++ b).takeWhile p = a ∧ (a ++ b).dropWhile p = b := by
  induction a with
  | nil =>
    simp only [List.nil_append, List.takeWhile_nil]
    constructor
    · cases b with
      | nil => rfl
      | cons x t =>
        rw [List.takeWhile_cons_of_neg]
        simp [h2 x rfl]
    · exact dropWhile_eq_self_of_head h2
  | cons x t ih =>
    have hx : p x = true := h x (List.mem_cons_self x t)
    obtain ⟨ih1, ih2⟩ := ih (fun c hc => h c (List.mem_cons_of_mem x hc))
    constructor
    · rw [List.cons_append, List.takeWhile_cons_of_pos hx, ih1]
    · rw [List.cons_append, List.dropWhile_cons_of_pos hx, ih2]

/-- C2 (amended): for every value string of the form
`Identifier [value=INNER]` (one space, `INNER` nonempty without `]`),
the classifier returns the inner text as a string, stripped but NOT
re-classified: the single-value wrapper rule returns the raw capture, so
a numeric `INNER` still yields a string. -/
theorem claim_C2_value_wrapper :
    (∀ id inner : List Char,
      ¬(id = []) → (∀ c ∈ id, isWordChar c = true) → ¬(inner = []) → ¬(']' ∈ inner) →
      parse_value_recursive (id ++ ' ' :: ("[value=".data ++ (inner ++ [']']))) =
        PyVal.str (String.mk (stripL inner))) ∧
    parse_value_recursive "TransactionStatus [value=authorization_succeeded]".data =
      PyVal.str "authorization_succeeded" := by
  constructor
  · intro id inner hid hword hinner hnoRb
    have hvshape : id ++ ' ' :: ("[value=".data ++ (inner ++ [']'])) =
        (id ++ ' ' :: ("[value=".data ++ inner)) ++ [']'] := by
      simp
    have hhead : ∀ c, (id ++ ' ' :: ("[value=".data ++ (inner ++ [']']))).head? = some c →
        pyIsSpace c = false := by
      intro c hc
      cases id with
      | nil => exact absurd rfl hid
      | cons a t =>
        simp only [List.cons_append, List.head?_cons, Option.some.injEq] at hc
        subst hc
        exact isWordChar_not_space (hword a (List.mem_cons_self a t))
    have hlast : ∀ c, (id ++ ' ' :: ("[value=".data ++ (inner ++ [']']))).getLast? = some c →
        pyIsSpace c = false := by
      intro c hc
      rw [hvshape, List.getLast?_concat] at hc
      cases hc
      decide
    have hstrip : stripL (id ++ ' ' :: ("[value=".data ++ (inner ++ [']']))) =
        id ++ ' ' :: ("[value=".data ++ (inner ++ [']'])) := stripL_eq_self hhead hlast
    have hlen : 10 ≤ (id ++ ' ' :: ("[value=".data ++ (inner ++ [']']))).length := by
      have h1 : 1 ≤ id.length := by
        cases id with
        | nil => exact absurd rfl hid
        | cons a t => simp
      simp
      omega
    have hmemsp : ' ' ∈ id ++ ' ' :: ("[value=".data ++ (inner ++ [']'])) := by
      simp
    have c1 : (id ++ ' ' :: ("[value=".data ++ (inner ++ [']'])) = []) = False := by
      apply eq_false
      intro h
      have := congrArg List.length h
      simp at this
    have c2 : (lowerL (id ++ ' ' :: ("[value=".data ++ (inner ++ [']']))) = "null".data ∨
        lowerL (id ++ ' ' :: ("[value=".data ++ (inner ++ [']']))) = "none".data) = False := by
      apply eq_false
      rintro (h | h) <;>
      · have := congrArg List.length h
        simp only [lowerL, List.length_map] at this
        rw [this] at hlen
        revert hlen
        decide
    have c3 : (lowerL (id ++ ' ' :: ("[value=".data ++ (inner ++ [']']))) = "true".data) = False := by
      apply eq_false
      intro h
      have := congrArg List.length h
      simp only [lowerL, List.length_map] at this
      rw [this] at hlen
      revert hlen
      decide
    have c4 : (lowerL (id ++ ' ' :: ("[value=".data ++ (inner ++ [']']))) = "false".data) = False := by
      apply eq_false
      intro h
      have := congrArg List.length h
      simp only [lowerL, List.length_map] at this
      rw [this] at hlen
      revert hlen
      decide
    have c5 : (id ++ ' ' :: ("[value=".data ++ (inner ++ [']'])) =
        "JsonNullable[null]".data) = False := by
      apply eq_false
      intro h
      rw [h] at hmemsp
      revert hmemsp
      decide
    have c6 : (id ++ ' ' :: ("[value=".data ++ (inner ++ [']'])) =
        "Optional[null]".data) = False := by
      apply eq_false
      intro h
      rw [h] at hmemsp
      revert hmemsp
      decide
    have c7 : (id ++ ' ' :: ("[value=".data ++ (inner ++ [']'])) = "[]".data) = False := by
      apply eq_false
      intro h
      have := congrArg List.length h
      rw [this] at hlen
      revert hlen
      decide
    have htw := takeWhile_append_all (p := isWordChar)
      (b := ' ' :: ("[value=".data ++ (inner ++ [']']))) hword
      (by
        intro c hc
        simp only [List.head?_cons, Option.some.injEq] at hc
        subst hc
        decide)
    have hmv : matchValueWrapper (id ++ ' ' :: ("[value=".data ++ (inner ++ [']']))) =
        some inner := by
      simp only [matchValueWrapper, htw.1, htw.2]
      rw [if_neg hid]
      rw [List.dropWhile_cons_of_pos (by decide)]
      rw [show ("[value=".data ++ (inner ++ [']'])) = '[' :: ("value=".data ++ (inner ++ [']']))
        from rfl]
      rw [List.dropWhile_cons_of_neg (by decide)]
      rw [show ('[' :: ("value=".data ++ (inner ++ [']']))) = "[value=".data ++ (inner ++ [']'])
        from rfl]
      rw [if_pos (List.isPrefixOf_iff_prefix.mpr (List.prefix_append _ _))]
      rw [show (7 : ℕ) = ("[value=".data : List Char).length from rfl, List.drop_left]
      have htw2 := takeWhile_append_all (p := fun c => ¬(c = ']')) (a := inner) (b := [']'])
        (by
          intro c hc
          simp only [decide_eq_true_eq]
          intro hrb
          subst hrb
          exact hnoRb hc)
        (by
          intro c hc
          simp only [List.head?_cons, Option.some.injEq] at hc
          subst hc
          simp)
      rw [htw2.1]
      rw [if_pos ⟨hinner, rfl⟩]
    rw [parse_value_recursive.eq_def]
    simp only [hstrip, c1, c2, c3, c4, c5, c6, c7, if_false, hmv]
  · exact classify_eval (n := 60) rfl

/-- C2 counterexample: the claim says the inner text of a `[value=...]`
wrapper is re-classified (so `5` would become an `Int`); the code
returns the raw inner string instead. -/
theorem claim_C2_counterexample :
    parse_value_recursive "TransactionStatus [value=5]".data = PyVal.str "5" ∧
    ¬(PyVal.str "5" = PyVal.int 5) := by
  constructor
  · exact classify_eval (n := 40) rfl
  · intro h
    exact PyVal.noConfusion h

/-- C2 witness: the amended rule applied at a concrete input. -/
theorem claim_C2_witness :
    ¬(("Ty".data : List Char) = []) ∧ (∀ c ∈ ("Ty".data : List Char), isWordChar c = true) ∧
    ¬(("07".data : List Char) = []) ∧ ¬(']' ∈ ("07".data : List Char)) ∧
    parse_value_recursive ("Ty".data ++ ' ' :: ("[value=".data ++ ("07".data ++ [']']))) =
      PyVal.str (String.mk (stripL "07".data)) :=
  ⟨by decide, by decide, by decide, by decide,
    claim_C2_value_wrapper.1 "Ty".data "07".data (by decide) (by decide) (by decide) (by decide)⟩

/-- C4 (amended): for a tagged-object literal `TypeName[INNER]` whose
inner content parses to a non-empty field mapping (and which no earlier
classifier rule captures), the type name is stored as an ordinary entry
under the reserved key `_type` INSIDE the field mapping itself —
appended after the parsed fields, or overwriting in place a source field
literally named `_type`; `classify("TransactionBuyer[email=a@b.com]")`
yields the mapping `{email: a@b.com, _type: TransactionBuyer}`. -/
theorem claim_C4_type_tag :
    (∀ tname inner : List Char,
      ¬(tname = []) → (∀ c ∈ tname, isWordChar c = true) →
      ¬(tname = "Optional".data) → ¬(tname = "JsonNullable".data) →
      matchValueWrapper (tname ++ '[' :: (inner ++ [']'])) = Option.none →
      ¬(inner = []) →
      ¬(parse_fields_from_content inner = []) →
      parse_value_recursive (tname ++ '[' :: (inner ++ [']'])) =
        PyVal.dict (dictInsert (parse_fields_from_content inner) "_type"
          (PyVal.str (String.mk tname)))) ∧
    parse_value_recursive "TransactionBuyer[email=a@b.com]".data =
      PyVal.dict [("email", PyVal.str "a@b.com"), ("_type", PyVal.str "TransactionBuyer")] := by
  constructor
  · intro tname inner hid hword hopt hjn hmv hinner hpf
    have hvshape : tname ++ '[' :: (inner ++ [']']) = (tname ++ '[' :: inner) ++ [']'] := by
      simp
    have htw := takeWhile_append_all (p := isWordChar) (a := tname)
      (b := '[' :: (inner ++ [']'])) hword
      (by
        intro c hc
        simp only [List.head?_cons, Option.some.injEq] at hc
        subst hc
        decide)
    have hhead : ∀ c, (tname ++ '[' :: (inner ++ [']'])).head? = some c →
        pyIsSpace c = false := by
      intro c hc
      cases tname with
      | nil => exact absurd rfl hid
      | cons a t =>
        simp only [List.cons_append, List.head?_cons, Option.some.injEq] at hc
        subst hc
        exact isWordChar_not_space (hword a (List.mem_cons_self a t))
    have hlast : ∀ c, (tname ++ '[' :: (inner ++ [']'])).getLast? = some c →
        pyIsSpace c = false := by
      intro c hc
      rw [hvshape, List.getLast?_concat] at hc
      cases hc
      decide
    have hstrip : stripL (tname ++ '[' :: (inner ++ [']'])) =
        tname ++ '[' :: (inner ++ [']']) := stripL_eq_self hhead hlast
    have hmemlb : '[' ∈ tname ++ '[' :: (inner ++ [']']) := by
      simp
    have hmemlb2 : '[' ∈ lowerL (tname ++ '[' :: (inner ++ [']'])) := by
      have h0 := List.mem_map_of_mem lowerChar hmemlb
      rw [show lowerChar '[' = '[' from rfl] at h0
      exact h0
    have hlen : 4 ≤ (tname ++ '[' :: (inner ++ [']'])).length := by
      have h1 : 1 ≤ tname.length := by
        cases tname with
        | nil => exact absurd rfl hid
        | cons a t => simp
      have h2 : 1 ≤ inner.length := by
        cases inner with
        | nil => exact absurd rfl hinner
        | cons a t => simp
      simp
      omega
    have c1 : (tname ++ '[' :: (inner ++ [']']) = []) = False := by
      apply eq_false
      intro h
      have := congrArg List.length h
      simp at this
    have c2 : (lowerL (tname ++ '[' :: (inner ++ [']'])) = "null".data ∨
        lowerL (tname ++ '[' :: (inner ++ [']'])) = "none".data) = False := by
      apply eq_false
      rintro (h | h) <;>
        (rw [h] at hmemlb2
         revert hmemlb2
         decide)
    have c3 : (lowerL (tname ++ '[' :: (inner ++ [']'])) = "true".data) = False := by
      apply eq_false
      intro h
      rw [h] at hmemlb2
      revert hmemlb2
      decide
    have c4 : (lowerL (tname ++ '[' :: (inner ++ [']'])) = "false".data) = False := by
      apply eq_false
      intro h
      rw [h] at hmemlb2
      revert hmemlb2
      decide
    have c5 : (tname ++ '[' :: (inner ++ [']']) = "JsonNullable[null]".data) = False := by
      apply eq_false
      intro h
      apply hjn
      have := htw.1
      rw [h] at this
      rw [show ("JsonNullable[null]".data : List Char).takeWhile isWordChar =
        "JsonNullable".data from by decide] at this
      exact this.symm
    have c6 : (tname ++ '[' :: (inner ++ [']']) = "Optional[null]".data) = False := by
      apply eq_false
      intro h
      apply hopt
      have := htw.1
      rw [h] at this
      rw [show ("Optional[null]".data : List Char).takeWhile isWordChar =
        "Optional".data from by decide] at this
      exact this.symm
    have c7 : (tname ++ '[' :: (inner ++ [']']) = "[]".data) = False := by
      apply eq_false
      intro h
      have := congrArg List.length h
      rw [this] at hlen
      revert hlen
      decide
    have hw1 : matchWrap "Optional[".data (tname ++ '[' :: (inner ++ [']'])) = Option.none := by
      simp only [matchWrap]
      rw [if_neg]
      intro hp
      obtain ⟨w, hw⟩ := List.isPrefixOf_iff_prefix.mp hp
      apply hopt
      have := htw.1
      rw [← hw] at this
      rw [show ("Optional[".data : List Char) ++ w = "Optional".data ++ ('[' :: w) from rfl] at this
      rw [(takeWhile_append_all (p := isWordChar) (a := "Optional".data) (b := '[' :: w)
        (by decide)
        (by
          intro c hc
          simp only [List.head?_cons, Option.some.injEq] at hc
          subst hc
          decide)).1] at this
      exact this.symm
    have hw2 : matchWrap "JsonNullable[".data (tname ++ '[' :: (inner ++ [']'])) =
        Option.none := by
      simp only [matchWrap]
      rw [if_neg]
      intro hp
      obtain ⟨w, hw⟩ := List.isPrefixOf_iff_prefix.mp hp
      apply hjn
      have := htw.1
      rw [← hw] at this
      rw [show ("JsonNullable[".data : List Char) ++ w =
        "JsonNullable".data ++ ('[' :: w) from rfl] at this
      rw [(takeWhile_append_all (p := isWordChar) (a := "JsonNullable".data) (b := '[' :: w)
        (by decide)
        (by
          intro c hc
          simp only [List.head?_cons, Option.some.injEq] at hc
          subst hc
          decide)).1] at this
      exact this.symm
    have hlen2 : 2 ≤ (inner ++ [']']).length := by
      have h2 : 1 ≤ inner.length := by
        cases inner with
        | nil => exact absurd rfl hinner
        | cons a t => simp
      simp
      omega
    have hn : matchNested (tname ++ '[' :: (inner ++ [']'])) = some (tname, inner) := by
      simp only [matchNested, htw.1, htw.2]
      rw [if_neg hid]
      rw [if_pos ⟨hlen2, List.getLast?_concat inner⟩]
      rw [List.dropLast_concat]
    rw [parse_value_recursive.eq_def]
    simp only [hstrip, c1, c2, c3, c4, c5, c6, c7, if_false, hmv]
    split
    · rename_i inner1 heq
      rw [hstrip, hw1] at heq
      exact Option.noConfusion heq
    · split
      · rename_i inner1 heq
        rw [hstrip, hw2] at heq
        exact Option.noConfusion heq
      · split
        · rename_i tn1 in1 heq
          rw [hstrip, hn] at heq
          have hpr := Option.some.inj heq
          have h1 : tname = tn1 := congrArg Prod.fst hpr
          have h2 : inner = in1 := congrArg Prod.snd hpr
          subst h1
          subst h2
          rw [if_neg hpf]
        · rename_i heq
          rw [hstrip, hn] at heq
          exact Option.noConfusion heq
  · exact classify_eval (n := 60) rfl

/-- C4 counterexample: the type tag is not stored separately from the
field mapping — the result mapping contains an extra `_type` entry, and
a source field literally named `_type` IS overwritten by the tag. -/
theorem claim_C4_counterexample :
    parse_value_recursive "TransactionBuyer[email=a@b.com]".data =
      PyVal.dict [("email", PyVal.str "a@b.com"), ("_type", PyVal.str "TransactionBuyer")] ∧
    ¬(PyVal.dict [("email", PyVal.str "a@b.com"), ("_type", PyVal.str "TransactionBuyer")] =
      PyVal.dict [("email", PyVal.str "a@b.com")]) ∧
    parse_value_recursive "Foo[_type=bar]".data = PyVal.dict [("_type", PyVal.str "Foo")] := by
  refine ⟨classify_eval (n := 60) rfl, ?_, classify_eval (n := 40) rfl⟩
  intro h
  have := congrArg (fun v => match v with | PyVal.dict m => m.length | _ => 0) h
  simp at this

/-- C4 witness: the amended tagged-object rule applied concretely. -/
theorem claim_C4_witness :
    ¬(("Buyer".data : List Char) = []) ∧
    matchValueWrapper ("Buyer".data ++ '[' :: ("x=1".data ++ [']'])) = Option.none ∧
    ¬(parse_fields_from_content "x=1".data = []) ∧
    parse_value_recursive ("Buyer".data ++ '[' :: ("x=1".data ++ [']'])) =
      PyVal.dict (dictInsert (parse_fields_from_content "x=1".data) "_type"
        (PyVal.str (String.mk "Buyer".data))) := by
  have hx : parse_fields_from_content "x=1".data = [("x", PyVal.int 1)] :=
    pfc_eval (n := 20) rfl
  refine ⟨by decide, by decide, ?_, ?_⟩
  · rw [hx]
    simp
  · exact claim_C4_type_tag.1 "Buyer".data "x=1".data (by decide) (by decide) (by decide)
      (by decide) (by decide) (by decide) (by
        rw [hx]
        simp)

theorem mkNested_cons : ∀ n : ℕ, ∃ c t, mkNested n = c :: t ∧ (c = '5' ∨ c = 'O') := by
  intro n
  cases n with
  | zero => exact ⟨'5', [], rfl, Or.inl rfl⟩
  | succ m =>
    refine ⟨'O', ("ptional[".data ++ mkNested m) ++ [']'], ?_, Or.inr rfl⟩
    show ("Optional[".data ++ mkNested m) ++ [']'] = _
    rfl

theorem mkNested_ne_nil (n : ℕ) : ¬(mkNested n = []) := by
  obtain ⟨c, t, heq, _⟩ := mkNested_cons n
  rw [heq]
  simp

/-- Classification of arbitrarily deeply nested `Optional[...]` wrappers
succeeds at every depth: the classifier has no recursion-depth guard. -/
theorem classify_mkNested : ∀ n : ℕ, parse_value_recursive (mkNested n) = PyVal.int 5 := by
  intro n
  induction n with
  | zero => exact classify_eval (n := 5) rfl
  | succ m ih =>
    have hshape : mkNested (m + 1) = ("Optional[".data ++ mkNested m) ++ [']'] := rfl
    have hshape2 : mkNested (m + 1) = "Optional[".data ++ (mkNested m ++ [']']) := by
      rw [hshape, List.append_assoc]
    have hshape3 : mkNested (m + 1) = 'O' :: ("ptional[".data ++ (mkNested m ++ [']'])) := by
      rw [hshape2]
      rfl
    obtain ⟨c0, t0, hm0, hc0⟩ := mkNested_cons m
    have hhead : ∀ c, (mkNested (m + 1)).head? = some c → pyIsSpace c = false := by
      intro c hc
      rw [hshape3] at hc
      simp only [List.head?_cons, Option.some.injEq] at hc
      subst hc
      decide
    have hlast : ∀ c, (mkNested (m + 1)).getLast? = some c → pyIsSpace c = false := by
      intro c hc
      rw [hshape, List.getLast?_concat] at hc
      cases hc
      decide
    have hstrip : stripL (mkNested (m + 1)) = mkNested (m + 1) := stripL_eq_self hhead hlast
    have hmemlb : '[' ∈ mkNested (m + 1) := by
      rw [hshape2]
      simp
    have hmemlb2 : '[' ∈ lowerL (mkNested (m + 1)) := by
      have h0 := List.mem_map_of_mem lowerChar hmemlb
      rw [show lowerChar '[' = '[' from rfl] at h0
      exact h0
    have hheadO : (mkNested (m + 1)).head? = some 'O' := by
      rw [hshape3]
      rfl
    have c1 : (mkNested (m + 1) = []) = False := by
      apply eq_false
      intro h
      rw [h] at hheadO
      cases hheadO
    have c2 : (lowerL (mkNested (m + 1)) = "null".data ∨
        lowerL (mkNested (m + 1)) = "none".data) = False := by
      apply eq_false
      rintro (h | h) <;>
        (rw [h] at hmemlb2
         revert hmemlb2
         decide)
    have c3 : (lowerL (mkNested (m + 1)) = "true".data) = False := by
      apply eq_false
      intro h
      rw [h] at hmemlb2
      revert hmemlb2
      decide
    have c4 : (lowerL (mkNested (m + 1)) = "false".data) = False := by
      apply eq_false
      intro h
      rw [h] at hmemlb2
      revert hmemlb2
      decide
    have c5 : (mkNested (m + 1) = "JsonNullable[null]".data) = False := by
      apply eq_false
      intro h
      rw [h] at hheadO
      cases hheadO
    have c6 : (mkNested (m + 1) = "Optional[null]".data) = False := by
      apply eq_false
      intro h
      rw [hshape2] at h
      rw [show ("Optional[null]".data : List Char) =
        "Optional[".data ++ ("null".data ++ [']']) from rfl] at h
      have h2 := List.append_cancel_left h
      have h3 := List.append_cancel_right h2
      rw [h3] at hm0
      rcases hc0 with rfl | rfl <;> cases hm0
    have c7 : (mkNested (m + 1) = "[]".data) = False := by
      apply eq_false
      intro h
      rw [h] at hheadO
      cases hheadO
    have htw := takeWhile_append_all (p := isWordChar) (a := "Optional".data)
      (b := '[' :: (mkNested m ++ [']'])) (by decide)
      (by
        intro c hc
        simp only [List.head?_cons, Option.some.injEq] at hc
        subst hc
        decide)
    have hshape4 : mkNested (m + 1) = "Optional".data ++ ('[' :: (mkNested m ++ [']'])) := by
      rw [hshape2]
      rfl
    have hmv : matchValueWrapper (mkNested (m + 1)) = Option.none := by
      rw [hshape4]
      simp only [matchValueWrapper, htw.1, htw.2]
      rw [if_neg (by decide)]
      rw [List.dropWhile_cons_of_neg (by decide)]
      rw [if_neg]
      intro hp
      rw [hm0] at hp
      rcases hc0 with rfl | rfl <;> simp [List.isPrefixOf] at hp
    have hlenm : 2 ≤ (mkNested m ++ [']']).length := by
      rw [hm0]
      simp
    have hwOpt : matchWrap "Optional[".data (mkNested (m + 1)) = some (mkNested m) := by
      rw [hshape2]
      simp only [matchWrap]
      rw [if_pos (List.isPrefixOf_iff_prefix.mpr (List.prefix_append _ _))]
      rw [List.drop_left]
      rw [if_pos ⟨hlenm, List.getLast?_concat (mkNested m)⟩]
      rw [List.dropLast_concat]
    have hlow : ¬(lowerL (mkNested m) = "null".data) := by
      intro h
      rw [hm0] at h
      have h2 := congrArg List.head? h
      simp only [lowerL, List.map_cons, List.head?_cons] at h2
      rcases hc0 with rfl | rfl <;> exact absurd h2 (by decide)
    rw [parse_value_recursive.eq_def]
    simp only [hstrip, c1, c2, c3, c4, c5, c6, c7, if_false, hmv]
    split
    · rename_i inner1 heq
      rw [hstrip, hwOpt] at heq
      have h2 := Option.some.inj heq
      rw [← h2]
      rw [if_neg hlow]
      exact ih
    · rename_i heq
      rw [hstrip, hwOpt] at heq
      exact Option.noConfusion heq

theorem paiLoop_eq_split : ∀ (rest : List Char) (d : ℤ) (cur : List Char),
    paiLoop rest d cur = (splitTLAux ',' rest d cur).filterMap
      (fun s => if stripL s = [] then Option.none
        else some (parse_value_recursive (stripL s))) := by
  intro rest
  induction rest with
  | nil =>
    intro d cur
    simp only [paiLoop, splitTLAux, List.filterMap_cons, List.filterMap_nil]
    split_ifs with hi
    · rfl
    · rfl
  | cons c rs ih =>
    intro d cur
    simp only [paiLoop, splitTLAux]
    by_cases h1 : c = '[' ∨ c = lbrace
    · have hnc : ¬(c = ',' ∧ d = 0) := by
        rcases h1 with rfl | rfl <;> simp [lbrace]
      have hd : bracketDelta c = 1 := by
        rcases h1 with rfl | rfl <;> simp [bracketDelta]
      rw [if_pos h1, if_neg hnc, hd]
      exact ih (d + 1) (cur ++ [c])
    · by_cases h2 : c = ']' ∨ c = rbrace
      · have hnc : ¬(c = ',' ∧ d = 0) := by
          rcases h2 with rfl | rfl <;> simp [rbrace]
        have hd : bracketDelta c = -1 := by
          rcases h2 with rfl | rfl <;> simp [bracketDelta, lbrace, rbrace]
        rw [if_neg h1, if_pos h2, if_neg hnc, hd]
        exact ih (d - 1) (cur ++ [c])
      · by_cases h3 : c = ',' ∧ d = 0
        · rw [if_neg h1, if_neg h2, if_pos h3, if_pos h3]
          rw [List.filterMap_cons]
          split_ifs with hi
          · dsimp only
            exact ih d []
          · dsimp only
            rw [ih d []]
        · have hd : bracketDelta c = 0 := by
            unfold bracketDelta
            rw [if_neg h1, if_neg h2]
          rw [if_neg h1, if_neg h2, if_neg h3, if_neg h3, hd]
          rw [show d + 0 = d from by omega]
          exact ih d (cur ++ [c])

/-- C5 (amended): for every array literal `[` + inner + `]`, the
classifier produces one item per top-level comma segment whose TRIMMED
text is non-empty; segments that trim to empty are skipped (they do not
classify to Null), so inner content consisting only of commas and
whitespace also yields an empty array; fully empty inner content yields
an empty array. -/
theorem claim_C5_array_segments :
    (∀ l : List Char, parse_value_recursive ('[' :: (l ++ [']'])) =
      PyVal.list ((split_top_level (stripL l) ',').filterMap
        (fun s => if stripL s = [] then Option.none
          else some (parse_value_recursive (stripL s))))) ∧
    parse_value_recursive "[1,,2]".data = PyVal.list [PyVal.int 1, PyVal.int 2] ∧
    parse_value_recursive "[,]".data = PyVal.list [] := by
  refine ⟨?_, classify_eval (n := 30) rfl, classify_eval (n := 20) rfl⟩
  intro l
  by_cases hl : l = []
  · subst hl
    have h1 : parse_value_recursive "[]".data = PyVal.list [] := classify_eval (n := 5) rfl
    simpa [split_top_level, stripL] using h1
  · have hhead : ∀ c, ('[' :: (l ++ [']'])).head? = some c → pyIsSpace c = false := by
      intro c hc
      simp only [List.head?_cons, Option.some.injEq] at hc
      subst hc
      decide
    have hshape : '[' :: (l ++ [']']) = ('[' :: l) ++ [']'] := rfl
    have hlast : ∀ c, ('[' :: (l ++ [']'])).getLast? = some c → pyIsSpace c = false := by
      intro c hc
      rw [hshape, List.getLast?_concat] at hc
      cases hc
      decide
    have hstrip : stripL ('[' :: (l ++ [']'])) = '[' :: (l ++ [']']) :=
      stripL_eq_self hhead hlast
    have hheadB : ('[' :: (l ++ [']'])).head? = some '[' := rfl
    have c1 : ('[' :: (l ++ [']']) = []) = False := by
      simp
    have c2 : (lowerL ('[' :: (l ++ [']'])) = "null".data ∨
        lowerL ('[' :: (l ++ [']'])) = "none".data) = False := by
      apply eq_false
      rintro (h | h) <;>
        (have h2 := congrArg List.head? h
         simp only [lowerL, List.map_cons, List.head?_cons] at h2
         exact absurd h2 (by decide))
    have c3 : (lowerL ('[' :: (l ++ [']'])) = "true".data) = False := by
      apply eq_false
      intro h
      have h2 := congrArg List.head? h
      simp only [lowerL, List.map_cons, List.head?_cons] at h2
      exact absurd h2 (by decide)
    have c4 : (lowerL ('[' :: (l ++ [']'])) = "false".data) = False := by
      apply eq_false
      intro h
      have h2 := congrArg List.head? h
      simp only [lowerL, List.map_cons, List.head?_cons] at h2
      exact absurd h2 (by decide)
    have c5 : ('[' :: (l ++ [']']) = "JsonNullable[null]".data) = False := by
      apply eq_false
      intro h
      have h2 := congrArg List.head? h
      rw [hheadB] at h2
      exact absurd h2 (by decide)
    have c6 : ('[' :: (l ++ [']']) = "Optional[null]".data) = False := by
      apply eq_false
      intro h
      have h2 := congrArg List.head? h
      rw [hheadB] at h2
      exact absurd h2 (by decide)
    have c7 : ('[' :: (l ++ [']']) = "[]".data) = False := by
      apply eq_false
      intro h
      apply hl
      have h2 : l ++ [']'] = [']'] := List.tail_eq_of_cons_eq h
      have h3 : l ++ [']'] = [] ++ [']'] := by
        rw [h2]
        rfl
      exact List.append_cancel_right h3
    have hmv : matchValueWrapper ('[' :: (l ++ [']'])) = Option.none := by
      simp only [matchValueWrapper]
      rw [if_pos]
      rw [List.takeWhile_cons_of_neg (by decide)]
    have hw1 : matchWrap "Optional[".data ('[' :: (l ++ [']'])) = Option.none := by
      simp only [matchWrap]
      rw [if_neg]
      intro hp
      simp [List.isPrefixOf] at hp
    have hw2 : matchWrap "JsonNullable[".data ('[' :: (l ++ [']'])) = Option.none := by
      simp only [matchWrap]
      rw [if_neg]
      intro hp
      simp [List.isPrefixOf] at hp
    have hn : matchNested ('[' :: (l ++ [']'])) = Option.none := by
      simp only [matchNested]
      rw [if_pos]
      rw [List.takeWhile_cons_of_neg (by decide)]
    have hrest : parseRest ('[' :: (l ++ [']'])) =
        PyVal.list ((split_top_level (stripL l) ',').filterMap
          (fun s => if stripL s = [] then Option.none
            else some (parse_value_recursive (stripL s)))) := by
      rw [parseRest.eq_def]
      rw [dif_pos ⟨hheadB, by rw [hshape]; exact List.getLast?_concat _⟩]
      have hinner : ((('[' :: (l ++ [']'])).drop 1).dropLast) = l := by
        simp only [List.drop_one, List.tail_cons]
        exact List.dropLast_concat
      rw [hinner]
      by_cases hsl : stripL l = []
      · rw [if_pos hsl, hsl]
        simp [split_top_level]
      · rw [if_neg hsl]
        rw [parse_array_items.eq_def]
        rw [paiLoop_eq_split]
        rw [split_top_level, if_neg hsl]
    rw [parse_value_recursive.eq_def]
    simp only [hstrip, c1, c2, c3, c4, c5, c6, c7, if_false, hmv]
    split
    · rename_i inner1 heq
      rw [hstrip, hw1] at heq
      exact Option.noConfusion heq
    · split
      · rename_i inner1 heq
        rw [hstrip, hw2] at heq
        exact Option.noConfusion heq
      · split
        · rename_i tn1 in1 heq
          rw [hstrip, hn] at heq
          exact Option.noConfusion heq
        · exact hrest

theorem segSplitAux_nil (d : ℤ) (acc : List Char) : segSplitAux [] d acc = (acc, []) := rfl

theorem pfcLoop_eq_split : ∀ (rest : List Char) (d : ℤ) (curF curV : List Char) (inF : Bool)
    (fields : List (String × PyVal)),
    (inF = true → curV = [] ∧
      ∀ tail, segSplitAux (curF ++ tail) 0 [] = segSplitAux tail d curF) →
    (inF = false →
      ∀ tail, segSplitAux ((curF ++ '=' :: curV) ++ tail) 0 [] = (curF, curV ++ tail)) →
    pfcLoop rest d curF curV inF fields =
      (splitTLAux ',' rest d (cond inF curF (curF ++ '=' :: curV))).foldl
        pfcStep fields := by
  intro rest
  induction rest with
  | nil =>
    intro d curF curV inF fields hT hF
    cases inF with
    | true =>
      obtain ⟨hV, hseg⟩ := hT rfl
      subst hV
      simp only [pfcLoop, splitTLAux, cond, List.foldl_cons, List.foldl_nil, pfcStep, segSplit]
      have hsg : segSplitAux (curF ++ []) 0 [] = (curF, []) := by
        rw [hseg []]
        rfl
      rw [List.append_nil] at hsg
      rw [hsg]
    | false =>
      have hseg := hF rfl []
      rw [List.append_nil, List.append_nil] at hseg
      simp only [pfcLoop, splitTLAux, cond, List.foldl_cons, List.foldl_nil, pfcStep, segSplit]
      rw [hseg]
  | cons c rs ih =>
    intro d curF curV inF fields hT hF
    simp only [pfcLoop, splitTLAux]
    by_cases h1 : c = '[' ∨ c = lbrace
    · have hnc : ¬(c = ',' ∧ d = 0) := by
        rcases h1 with rfl | rfl <;> simp [lbrace]
      have hd : bracketDelta c = 1 := by
        rcases h1 with rfl | rfl <;> simp [bracketDelta]
      rw [if_pos h1, if_neg hnc, hd]
      cases inF with
      | true =>
        obtain ⟨hV, hseg⟩ := hT rfl
        subst hV
        have hrec := ih (d + 1) (curF ++ [c]) [] true fields
          (by
            intro _
            refine ⟨rfl, ?_⟩
            intro tail
            rw [List.append_assoc, List.singleton_append]
            rw [hseg (c :: tail)]
            simp only [segSplitAux]
            rw [if_neg (by rcases h1 with rfl | rfl <;> simp [lbrace]), hd])
          (by intro h; cases h)
        simp only [cond] at hrec ⊢
        exact hrec
      | false =>
        have hseg := hF rfl
        have hrec := ih (d + 1) curF (curV ++ [c]) false fields
          (by intro h; cases h)
          (by
            intro _
            intro tail
            rw [show (curF ++ '=' :: (curV ++ [c])) ++ tail =
              (curF ++ '=' :: curV) ++ (c :: tail) from by simp]
            rw [hseg (c :: tail)]
            simp)
        simp only [cond] at hrec ⊢
        rw [show (curF ++ '=' :: curV) ++ [c] = curF ++ '=' :: (curV ++ [c]) from by simp]
        exact hrec
    · by_cases h2 : c = ']' ∨ c = rbrace
      · have hnc : ¬(c = ',' ∧ d = 0) := by
          rcases h2 with rfl | rfl <;> simp [rbrace]
        have hd : bracketDelta c = -1 := by
          rcases h2 with rfl | rfl <;> simp [bracketDelta, lbrace, rbrace]
        rw [if_neg h1, if_pos h2, if_neg hnc, hd]
        cases inF with
        | true =>
          obtain ⟨hV, hseg⟩ := hT rfl
          subst hV
          have hrec := ih (d - 1) (curF ++ [c]) [] true fields
            (by
              intro _
              refine ⟨rfl, ?_⟩
              intro tail
              rw [List.append_assoc, List.singleton_append]
              rw [hseg (c :: tail)]
              simp only [segSplitAux]
              rw [if_neg (by rcases h2 with rfl | rfl <;> simp [rbrace]), hd]
              rw [show d + -1 = d - 1 from by omega])
            (by intro h; cases h)
          simp only [cond] at hrec ⊢
          rw [show d + -1 = d - 1 from by omega]
          exact hrec
        | false =>
          have hseg := hF rfl
          have hrec := ih (d - 1) curF (curV ++ [c]) false fields
            (by intro h; cases h)
            (by
              intro _
              intro tail
              rw [show (curF ++ '=' :: (curV ++ [c])) ++ tail =
                (curF ++ '=' :: curV) ++ (c :: tail) from by simp]
              rw [hseg (c :: tail)]
              simp)
          simp only [cond] at hrec ⊢
          rw [show (curF ++ '=' :: curV) ++ [c] = curF ++ '=' :: (curV ++ [c]) from by simp]
          rw [show d + -1 = d - 1 from by omega]
          exact hrec
      · by_cases h3 : c = '=' ∧ d = 0 ∧ inF = true
        · obtain ⟨rfl, hd0, hinF⟩ := h3
          subst hd0
          subst hinF
          obtain ⟨hV, hseg⟩ := hT rfl
          subst hV
          rw [if_neg h1, if_neg h2, if_pos ⟨rfl, rfl, rfl⟩, if_neg (by simp)]
          have hrec := ih 0 curF [] false fields
            (by intro h; cases h)
            (by
              intro _
              intro tail
              rw [show (curF ++ '=' :: ([] : List Char)) ++ tail = curF ++ ('=' :: tail)
                from by simp]
              rw [hseg ('=' :: tail)]
              simp [segSplitAux])
          simp only [cond] at hrec
          rw [show bracketDelta '=' = 0 from rfl]
          rw [show (0 : ℤ) + 0 = 0 from by omega]
          rw [show (curF ++ ['=']) = curF ++ '=' :: ([] : List Char) from by simp]
          exact hrec
        · by_cases h4 : c = ',' ∧ d = 0
          · obtain ⟨rfl, hd0⟩ := h4
            subst hd0
            rw [if_neg h1, if_neg h2, if_neg h3]
            rw [if_pos ⟨rfl, rfl⟩]
            conv_rhs => rw [if_pos ⟨rfl, rfl⟩]
            rw [List.foldl_cons]
            have hstep : pfcStep fields (cond inF curF (curF ++ '=' :: curV)) =
                (if stripL curF = [] then fields
                 else dictInsert fields (String.mk (stripL curF))
                   (parse_value_recursive (stripL curV))) := by
              cases inF with
              | true =>
                obtain ⟨hV, hseg⟩ := hT rfl
                subst hV
                simp only [cond, pfcStep, segSplit]
                have hsg : segSplitAux (curF ++ []) 0 [] = (curF, []) := by
                  rw [hseg []]
                  rfl
                rw [List.append_nil] at hsg
                rw [hsg]
              | false =>
                have hseg := hF rfl []
                rw [List.append_nil, List.append_nil] at hseg
                simp only [cond, pfcStep, segSplit]
                rw [hseg]
            have hrec := ih 0 [] [] true
              (pfcStep fields (cond inF curF (curF ++ '=' :: curV)))
              (by
                intro _
                refine ⟨rfl, ?_⟩
                intro tail
                rfl)
              (by intro h; cases h)
            rw [hstep] at hrec
            rw [hstep]
            split_ifs with hname
            · rw [if_pos hname] at hrec
              exact hrec
            · rw [if_neg hname] at hrec
              exact hrec
          · have hd : bracketDelta c = 0 := by
              unfold bracketDelta
              rw [if_neg h1, if_neg h2]
            rw [if_neg h1, if_neg h2, if_neg h3, if_neg h4, if_neg h4, hd]
            cases inF with
            | true =>
              obtain ⟨hV, hseg⟩ := hT rfl
              subst hV
              have hne2 : ¬(c = '=' ∧ d = 0) := by
                intro hcd
                exact h3 ⟨hcd.1, hcd.2, rfl⟩
              have hrec := ih (d + 0) (curF ++ [c]) [] true fields
                (by
                  intro _
                  refine ⟨rfl, ?_⟩
                  intro tail
                  rw [List.append_assoc, List.singleton_append]
                  rw [hseg (c :: tail)]
                  simp only [segSplitAux]
                  rw [if_neg hne2, hd])
                (by intro h; cases h)
              simp only [cond, Int.add_zero] at hrec ⊢
              simp only [if_true, Int.add_zero]
              exact hrec
            | false =>
              have hseg := hF rfl
              have hrec := ih (d + 0) curF (curV ++ [c]) false fields
                (by intro h; cases h)
                (by
                  intro _
                  intro tail
                  rw [show (curF ++ '=' :: (curV ++ [c])) ++ tail =
                    (curF ++ '=' :: curV) ++ (c :: tail) from by simp]
                  rw [hseg (c :: tail)]
                  simp)
              simp only [cond, Int.add_zero] at hrec ⊢
              simp only [show (false = true) = False from by simp, if_false, Int.add_zero]
              rw [show (curF ++ '=' :: curV) ++ [c] = curF ++ '=' :: (curV ++ [c]) from by simp]
              exact hrec

theorem segSplitAux_no_eq : ∀ (seg : List Char) (d : ℤ) (acc : List Char),
    hasTopLevelEqAux seg d = false → segSplitAux seg d acc = (acc ++ seg, []) := by
  intro seg
  induction seg with
  | nil =>
    intro d acc _
    simp [segSplitAux]
  | cons c rest ih =>
    intro d acc h
    rw [hasTopLevelEqAux] at h
    rw [segSplitAux]
    by_cases hc : c = '=' ∧ d = 0
    · rw [if_pos hc] at h
      exact absurd h (by simp)
    · rw [if_neg hc] at h
      rw [if_neg hc]
      rw [ih (d + bracketDelta c) (acc ++ [c]) h]
      simp

/-- C10: the field-map parser processes exactly the top-level comma
segments of the content; a segment with non-empty trimmed text but no
top-level `=` still produces an entry whose name is the whole trimmed
segment and whose value is `Null` (the empty value string classifies to
`Null`), so the content `foo` parses to the mapping `{foo: Null}`. -/
theorem claim_C10_field_without_eq :
    (∀ content : List Char, parse_fields_from_content content =
      (split_top_level content ',').foldl pfcStep []) ∧
    (∀ (m : List (String × PyVal)) (seg : List Char), hasTopLevelEq seg = false →
      ¬(stripL seg = []) →
      pfcStep m seg = dictInsert m (String.mk (stripL seg)) PyVal.none) ∧
    parse_value_recursive [] = PyVal.none ∧
    parse_fields_from_content "foo".data = [("foo", PyVal.none)] := by
  have hnil : parse_value_recursive [] = PyVal.none := classify_eval (n := 1) rfl
  refine ⟨?_, ?_, hnil, pfc_eval (n := 10) rfl⟩
  · intro content
    rw [parse_fields_from_content.eq_def]
    rw [pfcLoop_eq_split content 0 [] [] true []
      (by
        intro _
        refine ⟨rfl, ?_⟩
        intro tail
        rfl)
      (by intro h; cases h)]
    by_cases hc : content = []
    · subst hc
      simp [splitTLAux, split_top_level, pfcStep, segSplit, segSplitAux, stripL]
    · rw [split_top_level, if_neg hc]
      rfl
  · intro m seg hne hst
    have hsg : segSplit seg = (seg, []) := by
      rw [segSplit]
      rw [segSplitAux_no_eq seg 0 [] hne]
      rfl
    simp only [pfcStep, hsg]
    rw [if_neg hst]
    have hsl : stripL ([] : List Char) = [] := rfl
    rw [hsl, hnil]

/-- C10 witness: the no-equals rule applied at the concrete content
`foo`. -/
theorem claim_C10_witness :
    hasTopLevelEq "foo".data = false ∧ ¬(stripL "foo".data = []) ∧
    pfcStep [] "foo".data = dictInsert [] (String.mk (stripL "foo".data)) PyVal.none :=
  ⟨by decide, by decide,
    claim_C10_field_without_eq.2.1 [] "foo".data (by decide) (by decide)⟩

theorem matchWrap_sound {pre v inner : List Char} (h : matchWrap pre v = some inner) :
    v = pre ++ (inner ++ [']']) ∧ ¬(inner = []) := by
  simp only [matchWrap] at h
  split at h
  · rename_i hp
    split at h
    · rename_i hcond
      cases h
      obtain ⟨w, hw⟩ := List.isPrefixOf_iff_prefix.mp hp
      have hdrop : v.drop pre.length = w := by
        rw [← hw, List.drop_left]
      rw [hdrop] at hcond ⊢
      have hwne : ¬(w = []) := by
        intro h0
        rw [h0] at hcond
        have := hcond.1
        simp at this
      have hlastc : w.getLast hwne = ']' := by
        have h1 := List.getLast?_eq_getLast w hwne
        rw [h1] at hcond
        exact Option.some.inj hcond.2
      have hback : w.dropLast ++ [']'] = w := by
        have h2 := List.dropLast_append_getLast hwne
        rw [hlastc] at h2
        exact h2
      constructor
      · rw [hback]
        exact hw.symm
      · intro h0
        rw [h0] at hback
        have hw1 : w = [']'] := by
          rw [← hback]
          rfl
        rw [hw1] at hcond
        have := hcond.1
        simp at this
    · cases h
  · cases h

theorem matchWrap_complete {u w : List Char} (hw : ¬(w = [])) :
    matchWrap u (u ++ (w ++ [']'])) = some w := by
  simp only [matchWrap]
  rw [if_pos (List.isPrefixOf_iff_prefix.mpr (List.prefix_append _ _))]
  rw [List.drop_left]
  have hlen : 2 ≤ (w ++ [']']).length := by
    cases w with
    | nil => exact absurd rfl hw
    | cons a t => simp
  rw [if_pos ⟨hlen, List.getLast?_concat w⟩]
  rw [List.dropLast_concat]

/-- The no-record condition of the exception-free idealization of the
record parse: no record exactly when the stripped chunk is not of the
form `Transaction[` + content + `]` (content spanning to the last `]`),
or when it is and the parsed field mapping of the content is empty.
The real program can additionally abort with an uncaught
`OverflowError` or `RecursionError` on extreme inputs (code bugs C8 and
C3), which this idealization does not represent. -/
theorem parse_transaction_none_iff :
    ∀ t : List Char, parse_transaction_text t = Option.none ↔
      ((∀ c : List Char, ¬(stripL t = "Transaction[".data ++ (c ++ [']']))) ∨
       (∃ c : List Char, stripL t = "Transaction[".data ++ (c ++ [']']) ∧
         parse_fields_from_content c = [])) := by
  intro t
  simp only [parse_transaction_text]
  by_cases hs : stripL t = []
  · rw [if_pos hs]
    simp only [true_iff]
    left
    intro c hc
    rw [hs] at hc
    have := congrArg List.length hc
    simp at this
  · rw [if_neg hs]
    cases hmw : matchWrap "Transaction[".data (stripL t) with
    | none =>
      simp only [true_iff]
      by_cases henv : ∃ c : List Char, stripL t = "Transaction[".data ++ (c ++ [']'])
      · obtain ⟨c, hc⟩ := henv
        by_cases hcn : c = []
        · subst hcn
          right
          exact ⟨[], hc, pfc_eval (n := 2) rfl⟩
        · exfalso
          have := matchWrap_complete (u := "Transaction[".data) hcn
          rw [← hc] at this
          rw [this] at hmw
          cases hmw
      · left
        intro c hc
        exact henv ⟨c, hc⟩
    | some content =>
      obtain ⟨henv, hne⟩ := matchWrap_sound hmw
      simp only []
      split_ifs with hpf
      · simp only [true_iff]
        right
        exact ⟨content, henv, hpf⟩
      · constructor
        · intro h
          exact absurd h (by simp)
        · intro h
          rcases h with h | ⟨c, hc, hpf2⟩
          · exact absurd henv (h content)
          · exfalso
            apply hpf
            have hceq : c = content := by
              rw [henv] at hc
              have h2 := List.append_cancel_left hc
              exact (List.append_cancel_right h2).symm
            rw [← hceq]
            exact hpf2

theorem isPrefixOf_take {l a r : List Char} (h : l.isPrefixOf (a ++ r) = true)
    (hle : a.length ≤ l.length) : l.take a.length = a := by
  obtain ⟨r2, hr2⟩ := List.isPrefixOf_iff_prefix.mp h
  have h1 : (l ++ r2).take a.length = l.take a.length := by
    rw [List.take_append_eq_append_take]
    have h0 : a.length - l.length = 0 := by omega
    rw [h0]
    simp
  rw [hr2] at h1
  rw [List.take_left] at h1
  exact h1.symm

theorem litNoOverlap : ∀ j : ℕ, 1 ≤ j → j ≤ 11 → ∀ r : List Char,
    ¬(("Transaction[".data : List Char).isPrefixOf
      (("Transaction[".data : List Char).drop j ++ r) = true) := by
  intro j h1 h2 r hp
  have hlen : (("Transaction[".data : List Char).drop j).length ≤
      ("Transaction[".data : List Char).length := by
    simp
  have htake := isPrefixOf_take hp hlen
  interval_cases j <;> revert htake <;> decide

theorem reSplitAux_all_prefix : ∀ (s cur : List Char),
    (("Transaction[".data : List Char).isPrefixOf cur = true ∨
     (1 ≤ cur.length ∧ cur.length ≤ 11 ∧
      cur = ("Transaction[".data : List Char).take cur.length ∧
      ("Transaction[".data : List Char).isPrefixOf (cur ++ s) = true)) →
    ∀ x ∈ reSplitAux s cur, ("Transaction[".data : List Char).isPrefixOf x = true := by
  intro s
  induction s with
  | nil =>
    intro cur hm x hx
    simp only [reSplitAux, List.mem_singleton] at hx
    subst hx
    rcases hm with hm | ⟨hj1, hj11, hcur, hpre⟩
    · exact hm
    · rw [List.append_nil] at hpre
      have := (List.isPrefixOf_iff_prefix.mp hpre).length_le
      rw [show (("Transaction[".data : List Char)).length = 12 from rfl] at this
      omega
  | cons c rest ih =>
    intro cur hm x hx
    rw [reSplitAux] at hx
    have hjlen : ∀ (j : ℕ), j ≤ 12 →
        ((("Transaction[".data : List Char)).take j).length = j := by
      intro j hj
      simp
      omega
    by_cases hb : ("Transaction[".data : List Char).isPrefixOf (c :: rest) = true
    · rw [if_pos hb] at hx
      rcases List.mem_cons.mp hx with hx0 | hx2
      · rw [hx0]
        rcases hm with hm | ⟨hj1, hj11, hcur, hpre⟩
        · exact hm
        · exfalso
          obtain ⟨t, ht⟩ := List.isPrefixOf_iff_prefix.mp hpre
          have hd := congrArg (List.drop cur.length) ht
          rw [List.drop_append_eq_append_drop] at hd
          have h0 : cur.length - (("Transaction[".data : List Char)).length = 0 := by
            rw [show (("Transaction[".data : List Char)).length = 12 from rfl]
            omega
          rw [h0, List.drop_zero] at hd
          rw [List.drop_left] at hd
          rw [← hd] at hb
          exact litNoOverlap cur.length hj1 hj11 t hb
      · refine ih [c] ?_ x hx2
        right
        obtain ⟨t, ht⟩ := List.isPrefixOf_iff_prefix.mp hb
        have hc : c = 'T' := by
          have := congrArg List.head? ht
          simp only [List.head?_cons] at this
          exact (Option.some.inj this).symm
        subst hc
        exact ⟨by simp, by simp, rfl, by
          rw [List.singleton_append]
          exact hb⟩
    · rw [if_neg hb] at hx
      rcases hm with hm | ⟨hj1, hj11, hcur, hpre⟩
      · refine ih (cur ++ [c]) ?_ x hx
        left
        apply List.isPrefixOf_iff_prefix.mpr
        exact (List.isPrefixOf_iff_prefix.mp hm).trans (List.prefix_append cur [c])
      · refine ih (cur ++ [c]) ?_ x hx
        obtain ⟨t, ht⟩ := List.isPrefixOf_iff_prefix.mp hpre
        have htake := congrArg (List.take (cur.length + 1)) ht
        rw [List.take_append_eq_append_take] at htake
        have h0 : cur.length + 1 - (("Transaction[".data : List Char)).length = 0 := by
          rw [show (("Transaction[".data : List Char)).length = 12 from rfl]
          omega
        rw [h0] at htake
        simp only [List.take_zero, List.append_nil] at htake
        rw [List.take_append_eq_append_take] at htake
        have h1 : cur.length + 1 - cur.length = 1 := by omega
        rw [h1, List.take_all_of_le (l := cur) (by omega),
          show (c :: rest).take 1 = [c] from rfl] at htake
        have hcur2 : ("Transaction[".data : List Char).take (cur.length + 1) =
            cur ++ [c] := htake
        by_cases hj : cur.length + 1 ≤ 11
        · right
          refine ⟨by simp, by simp; omega, ?_, ?_⟩
          · rw [show (cur ++ [c]).length = cur.length + 1 from by simp]
            exact hcur2.symm
          · rw [List.append_assoc, List.singleton_append]
            exact hpre
        · left
          have hj12 : cur.length + 1 = 12 := by omega
          rw [hj12] at hcur2
          rw [show (("Transaction[".data : List Char)).take 12 =
            ("Transaction[".data : List Char) from rfl] at hcur2
          rw [← hcur2]
          exact List.isPrefixOf_iff_prefix.mpr (List.prefix_refl _)

theorem reSplitAux_tail_prefix : ∀ (s cur : List Char),
    ∀ x ∈ (reSplitAux s cur).tail, ("Transaction[".data : List Char).isPrefixOf x = true := by
  intro s
  induction s with
  | nil =>
    intro cur x hx
    simp [reSplitAux] at hx
  | cons c rest ih =>
    intro cur x hx
    rw [reSplitAux] at hx
    by_cases hb : ("Transaction[".data : List Char).isPrefixOf (c :: rest) = true
    · rw [if_pos hb] at hx
      simp only [List.tail_cons] at hx
      refine reSplitAux_all_prefix rest [c] ?_ x hx
      right
      obtain ⟨t, ht⟩ := List.isPrefixOf_iff_prefix.mp hb
      have hc : c = 'T' := by
        have := congrArg List.head? ht
        simp only [List.head?_cons] at this
        exact (Option.some.inj this).symm
      subst hc
      exact ⟨by simp, by simp, rfl, by
        rw [List.singleton_append]
        exact hb⟩
    · rw [if_neg hb] at hx
      exact ih (cur ++ [c]) x hx

theorem containsSub_cons (c : Char) (rest needle : List Char) :
    containsSub (c :: rest) needle =
      (needle.isPrefixOf (c :: rest) || containsSub rest needle) := by
  simp only [containsSub, List.tails_cons, List.any_cons]

theorem reSplitAux_ne_nil : ∀ (s cur : List Char), ¬(reSplitAux s cur = []) := by
  intro s
  induction s with
  | nil =>
    intro cur
    simp [reSplitAux]
  | cons c rest ih =>
    intro cur h
    rw [reSplitAux] at h
    by_cases hb : ("Transaction[".data : List Char).isPrefixOf (c :: rest) = true
    · rw [if_pos hb] at h
      exact List.noConfusion h
    · rw [if_neg hb] at h
      exact ih (cur ++ [c]) h

theorem reSplitAux_no_occurrence : ∀ (s cur : List Char),
    containsSub s ("Transaction[".data) = false → reSplitAux s cur = [cur ++ s] := by
  intro s
  induction s with
  | nil =>
    intro cur h
    simp [reSplitAux]
  | cons c rest ih =>
    intro cur h
    rw [containsSub_cons] at h
    rw [Bool.or_eq_false_iff] at h
    rw [reSplitAux, if_neg (by rw [h.1]; exact Bool.false_ne_true)]
    rw [ih (cur ++ [c]) h.2]
    rw [List.append_assoc, List.singleton_append]

theorem split_records_no_occurrence (blob : List Char)
    (h : containsSub blob ("Transaction[".data) = false) :
    split_records blob = if stripL blob = [] then [] else [stripL blob] := by
  unfold split_records reSplitTransaction
  rw [reSplitAux_no_occurrence blob [] h, List.nil_append]
  by_cases hs : stripL blob = []
  · rw [if_pos hs]
    simp [List.filter_cons, hs]
  · rw [if_neg hs]
    simp [List.filter_cons, hs]

/-- Head of the zero-width split: the part of the blob that precedes the
first occurrence of the literal (the whole blob when the literal is
absent). -/
def headChunk (blob : List Char) : List Char := (reSplitTransaction blob).headI

theorem stripL_preserves_lit (x : List Char)
    (h : ("Transaction[".data : List Char).isPrefixOf x = true) :
    ("Transaction[".data : List Char).isPrefixOf (stripL x) = true := by
  obtain ⟨t, ht⟩ := List.isPrefixOf_iff_prefix.mp h
  have hdrop : x.dropWhile pyIsSpace = x := by
    rw [← ht]
    rw [show ("Transaction[".data : List Char) ++ t =
      'T' :: ("ransaction[".data ++ t) from rfl]
    rw [List.dropWhile_cons_of_neg (by decide)]
  have hsplit : stripL x ++ (x.reverse.takeWhile pyIsSpace).reverse = x := by
    unfold stripL
    rw [hdrop, ← List.reverse_append, List.takeWhile_append_dropWhile,
      List.reverse_reverse]
  have hw : ∀ c ∈ (x.reverse.takeWhile pyIsSpace).reverse, pyIsSpace c = true := by
    intro c hc
    rw [List.mem_reverse] at hc
    exact List.mem_takeWhile_imp hc
  have htake12 : x.take 12 = ("Transaction[".data : List Char) := by
    rw [← ht, List.take_append_eq_append_take]
    rw [show (12 : ℕ) - (("Transaction[".data : List Char)).length = 0 from rfl]
    rw [show (("Transaction[".data : List Char)).take 12 =
      ("Transaction[".data : List Char) from rfl]
    rw [List.take_zero, List.append_nil]
  by_cases hlen : 12 ≤ (stripL x).length
  · apply List.isPrefixOf_iff_prefix.mpr
    rw [← htake12]
    have h2 : x.take 12 = (stripL x).take 12 := by
      conv_lhs => rw [← hsplit]
      rw [List.take_append_eq_append_take]
      have h0 : 12 - (stripL x).length = 0 := by omega
      rw [h0, List.take_zero, List.append_nil]
    rw [h2]
    exact List.take_prefix _ _
  · exfalso
    have hxlen : 12 ≤ x.length := by
      rw [← ht]
      simp
    have hew : ("Transaction[".data : List Char) =
        stripL x ++ ((x.reverse.takeWhile pyIsSpace).reverse).take
          (12 - (stripL x).length) := by
      rw [← htake12]
      conv_lhs => rw [← hsplit]
      rw [List.take_append_eq_append_take,
        List.take_all_of_le (l := stripL x) (by omega)]
    have hwt : ¬(((x.reverse.takeWhile pyIsSpace).reverse).take
        (12 - (stripL x).length) = []) := by
      intro h0
      rw [h0, List.append_nil] at hew
      have hlc := congrArg List.length hew
      rw [show (("Transaction[".data : List Char)).length = 12 from rfl] at hlc
      omega
    have hlast : ('[' : Char) ∈ ((x.reverse.takeWhile pyIsSpace).reverse).take
        (12 - (stripL x).length) := by
      have h1 : ("Transaction[".data : List Char).getLast? = some '[' := rfl
      rw [hew] at h1
      rw [List.getLast?_append_of_ne_nil _ hwt] at h1
      obtain ⟨hne2, hlx⟩ := List.mem_getLast?_eq_getLast (Option.mem_def.mpr h1)
      rw [hlx]
      exact List.getLast_mem hne2
    have hmem : ('[' : Char) ∈ (x.reverse.takeWhile pyIsSpace).reverse :=
      List.mem_of_mem_take hlast
    exact absurd (hw '[' hmem) (by decide)

theorem parse_transaction_text_isSome {t v : List Char}
    (h1 : stripL t = "Transaction[".data ++ (v ++ [']'])) (h2 : ¬(v = []))
    (h3 : ¬(parse_fields_from_content v = [])) :
    (parse_transaction_text t).isSome = true := by
  have hne : ¬(stripL t = []) := by
    rw [h1]
    simp
  have hmw : matchWrap "Transaction[".data (stripL t) = some v := by
    rw [h1]
    exact matchWrap_complete h2
  rw [parse_transaction_text]
  rw [if_neg hne]
  simp only [hmw]
  rw [if_neg h3]
  rfl

/-- C3: the recursive classifier enforces no recursion-depth cap at all.
For every nesting depth n, classifying the n-fold nested literal
Optional[Optional[...5...]] succeeds and returns the integer 5; it never
fails with a depth-exceeded error, contrary to the claim that a maximum
recursion depth is enforced. -/
theorem claim_C3_unbounded_recursion :
    (∀ n : ℕ, parse_value_recursive (mkNested n) = PyVal.int 5) ∧
    parse_value_recursive (mkNested 100) = PyVal.int 5 :=
  ⟨classify_mkNested, classify_mkNested 100⟩

/-- C5 counterexample: empty top-level segments of an array literal are
skipped, not classified to Null: the literal with three segments 1, empty,
2 yields a two-item array rather than the three-item array with a middle
Null, and the literal with two empty segments yields the empty array even
though its inner content is the non-empty string containing one comma. -/
theorem claim_C5_counterexample :
    parse_value_recursive "[1,,2]".data = PyVal.list [PyVal.int 1, PyVal.int 2] ∧
    ¬(parse_value_recursive "[1,,2]".data =
        PyVal.list [PyVal.int 1, PyVal.none, PyVal.int 2]) ∧
    parse_value_recursive "[,]".data = PyVal.list [] ∧
    ¬("[,]".data = ("[]".data : List Char)) := by
  have h1 : parse_value_recursive "[1,,2]".data =
      PyVal.list [PyVal.int 1, PyVal.int 2] := classify_eval (n := 30) rfl
  refine ⟨h1, ?_, classify_eval (n := 20) rfl, by decide⟩
  rw [h1]
  intro hcontra
  have hlen := congrArg
    (fun v => match v with | PyVal.list l => l.length | _ => 0) hcontra
  simp at hlen

/-- C6 witness: the status string AUTH_Succeeded contains succeeded after
lower-casing, and normalize_status maps it to success, instantiating the
first priority rule of the status-normalization theorem. -/
theorem claim_C6_witness :
    (containsSub (lowerL "AUTH_Succeeded".data) "succeeded".data ∨
      containsSub (lowerL "AUTH_Succeeded".data) "success".data) ∧
    normalize_status (PyVal.str (String.mk "AUTH_Succeeded".data)) = "success".data :=
  ⟨by decide,
    (claim_C6_status_normalization.1 "AUTH_Succeeded".data).1 (by decide)⟩

/-- C9 (amended): the batch splitter cuts at every zero-width boundary
immediately preceding the literal Transaction[ and discards chunks that
are empty after trimming; every surviving chunk either starts with the
literal or is the trimmed part of the blob that precedes its first
occurrence; a blob in which the literal does not occur yields the single
chunk consisting of the whole trimmed blob when that is non-empty and no
chunk at all otherwise; and the blob Transaction[id=1]Transaction[id=2]
with no separating whitespace yields exactly the two expected chunks,
each of which parses successfully on its own. -/
theorem claim_C9_batch_splitter :
    (∀ blob x, x ∈ split_records blob →
      ("Transaction[".data : List Char).isPrefixOf x = true ∨
        x = stripL (headChunk blob)) ∧
    (∀ blob x, x ∈ split_records blob → ¬(x = [])) ∧
    (∀ blob, containsSub blob ("Transaction[".data) = false →
      split_records blob = if stripL blob = [] then [] else [stripL blob]) ∧
    split_records "Transaction[id=1]Transaction[id=2]".data =
      ["Transaction[id=1]".data, "Transaction[id=2]".data] ∧
    (parse_transaction_text "Transaction[id=1]".data).isSome = true ∧
    (parse_transaction_text "Transaction[id=2]".data).isSome = true ∧
    (parse_multiple_transactions "Transaction[id=1]Transaction[id=2]".data).length
      = 2 := by
  have h4 : split_records "Transaction[id=1]Transaction[id=2]".data =
      ["Transaction[id=1]".data, "Transaction[id=2]".data] := by rfl
  have hf1 : parse_fields_from_content "id=1".data = [("id", PyVal.int 1)] :=
    pfc_eval (n := 20) rfl
  have hf2 : parse_fields_from_content "id=2".data = [("id", PyVal.int 2)] :=
    pfc_eval (n := 20) rfl
  have hp1 : (parse_transaction_text "Transaction[id=1]".data).isSome = true := by
    refine parse_transaction_text_isSome (v := "id=1".data) (by rfl) (by decide) ?_
    rw [hf1]
    simp
  have hp2 : (parse_transaction_text "Transaction[id=2]".data).isSome = true := by
    refine parse_transaction_text_isSome (v := "id=2".data) (by rfl) (by decide) ?_
    rw [hf2]
    simp
  refine ⟨?_, ?_, ?_, h4, hp1, hp2, ?_⟩
  · intro blob x hx
    unfold split_records at hx
    obtain ⟨hmem, -⟩ := List.mem_filter.mp hx
    obtain ⟨y, hy, hyx⟩ := List.mem_map.mp hmem
    rw [reSplitTransaction] at hy
    cases hre : reSplitAux blob [] with
    | nil => exact absurd hre (reSplitAux_ne_nil blob [])
    | cons hd tl =>
      rw [hre] at hy
      rcases List.mem_cons.mp hy with h0 | h0
      · right
        rw [← hyx, h0, headChunk, reSplitTransaction, hre]
        rfl
      · left
        rw [← hyx]
        apply stripL_preserves_lit
        refine reSplitAux_tail_prefix blob [] y ?_
        rw [hre]
        exact h0
  · intro blob x hx
    unfold split_records at hx
    exact of_decide_eq_true (List.mem_filter.mp hx).2
  · exact fun blob h => split_records_no_occurrence blob h
  · obtain ⟨v1, hv1⟩ := Option.isSome_iff_exists.mp hp1
    obtain ⟨v2, hv2⟩ := Option.isSome_iff_exists.mp hp2
    rw [show parse_multiple_transactions
        "Transaction[id=1]Transaction[id=2]".data =
      (split_records "Transaction[id=1]Transaction[id=2]".data).filterMap
        parse_transaction_text from rfl, h4]
    simp [List.filterMap_cons, hv1, hv2]

/-- C9 counterexample: with leading junk before the first occurrence of
the literal, the first chunk does not start with Transaction[ (the blob
with prefix xx yields the chunk xx), and a blob of pure whitespace with
no occurrence of the literal yields no chunk at all rather than exactly
one. -/
theorem claim_C9_counterexample :
    split_records "xx Transaction[id=1]".data =
      ["xx".data, "Transaction[id=1]".data] ∧
    ¬(("Transaction[".data : List Char).isPrefixOf "xx".data = true) ∧
    split_records "   ".data = [] ∧
    containsSub "   ".data ("Transaction[".data) = false := by
  exact ⟨by rfl, by decide, by rfl, by rfl⟩

/-- C9 witness: instantiates the amended batch-splitter theorem on the
blob with junk prefix xx (the second chunk is a member and starts with
the literal or equals the trimmed head chunk) and on a literal-free blob
(which yields exactly its own trimmed text). -/
theorem claim_C9_witness :
    ("Transaction[id=1]".data ∈ split_records "xx Transaction[id=1]".data ∧
      (("Transaction[".data : List Char).isPrefixOf "Transaction[id=1]".data = true ∨
        "Transaction[id=1]".data = stripL (headChunk "xx Transaction[id=1]".data))) ∧
    (containsSub "hello world".data ("Transaction[".data) = false ∧
      split_records "hello world".data =
        if stripL "hello world".data = [] then [] else [stripL "hello world".data]) :=
  ⟨⟨by decide, claim_C9_batch_splitter.1 _ _ (by decide)⟩,
    ⟨by rfl, claim_C9_batch_splitter.2.2.1 _ (by rfl)⟩⟩

set_option maxRecDepth 8000 in
/-- C7 (code bug): the amount conversion does not return a number for
every numeric amount.  The classifier parses the 310-digit literal 1
followed by 309 zeros to the Python integer 10^309, so such a value
reaches `convert_amount` from any `amount=` field; and 10^309 exceeds
2^1024 - 2^970, the threshold from which CPython `float()` on an
integer raises `OverflowError`, which the `except (ValueError,
TypeError)` of lines 309-310 does not catch, so the call crashes
instead of returning the amount divided by 100.  The in-range heuristic
itself is `convert_amount_heuristic`. -/
theorem claim_C7_amount_overflow :
    parse_value_recursive ('1' :: List.replicate 309 '0') = PyVal.int (10 ^ 309) ∧
    (2 : ℤ) ^ 1024 - 2 ^ 970 < 10 ^ 309 := by
  constructor
  · exact classify_eval (n := 5) rfl
  · norm_num

set_option maxRecDepth 8000 in
/-- C8 (code bug): the record parse is not exception-free on every input
string.  An `amount=` field is parsed into the field mapping and its
value handed to `convert_amount` (so the idealized parse returns a
record for `Transaction[amount=1591]`); a 310-digit amount literal
parses to the integer 10^309, which lies beyond the 2^1024 - 2^970
threshold at which CPython `float()` on an integer raises
`OverflowError`, uncaught by `except (ValueError, TypeError)`, so the
real parse crashes there instead of returning a record or `None`;
deeply nested field values likewise abort with `RecursionError`
(claim C3). -/
theorem claim_C8_uncaught_overflow :
    parse_fields_from_content "amount=1591".data = [("amount", PyVal.int 1591)] ∧
    ¬(parse_transaction_text "Transaction[amount=1591]".data = Option.none) ∧
    pyInt? ('1' :: List.replicate 309 '0') = some (10 ^ 309) ∧
    (2 : ℤ) ^ 1024 - 2 ^ 970 < (10 : ℤ) ^ 309 := by
  have hf : parse_fields_from_content "amount=1591".data =
      [("amount", PyVal.int 1591)] := pfc_eval (n := 20) rfl
  refine ⟨hf, ?_, by rfl, by norm_num⟩
  have hs : (parse_transaction_text "Transaction[amount=1591]".data).isSome = true := by
    refine parse_transaction_text_isSome (v := "amount=1591".data) (by rfl) (by decide) ?_
    rw [hf]
    simp
  intro hn
  rw [hn] at hs
  cases hs
